import Mathlib

/-!
Verification of the `lfuda-go` cache engine: the age-based `simplelfuda`
variant that is live behind the public API (the `LFUDA` struct with byte
capacity, priority-key buckets and the LFUDA / GDSF policies).

Numeric modelling: the Go source stores capacity, sizes, hit counts,
priority keys and the global age as `float64`.  Every value that actually
arises is an integer byte count, an integer hit count, or a sum / quotient
of such values together with the current age, so we model the numbers as
exact rationals.  The one non-finite float the code can produce is the
division `hits / 0 = +Inf` inside `gdsfPolicy` when an item's byte size is
zero (`hits` is at least 1 at every call site); we model priority keys and
the age in `WithTop ℚ`, rendering that `+Inf` as `⊤`.
-/

namespace Lfuda

/-- Priority keys and the cache age (`float64` in the source). -/
abbrev Pri : Type := WithTop ℚ

/-- The two eviction policies of the engine (`cachePolicy` function field). -/
inductive Policy where
  | lfuda
  | gdsf
deriving DecidableEq

/-- `lfudaPolicy`: `Ki = Ci * Fi + L` with `C = 1`, i.e. `hits + age`. -/
def lfudaPolicy (hits : ℚ) (age : Pri) : Pri :=
  ((hits : ℚ) : Pri) + age

/-- `gdsfPolicy`: `Ki = Fi * Ci / Si + L` with `C = 1`, i.e.
`hits/size + age`.  Go float division yields `+Inf` when `size = 0` and
`hits > 0` (every call site has `hits ≥ 1`), modelled by `⊤`. -/
def gdsfPolicy (hits size : ℚ) (age : Pri) : Pri :=
  if size = 0 then ⊤ else ((hits / size : ℚ) : Pri) + age

/-- Dispatch on the `policy` field, as the source does through the
`cachePolicy` function value. -/
def applyPolicy : Policy → ℚ → ℚ → Pri → Pri
  | .lfuda, hits, _, age => lfudaPolicy hits age
  | .gdsf, hits, size, age => gdsfPolicy hits size age

/-- The `item` struct: value, byte size, hit count and current priority
key.  The key lives in the association list of the cache; the
`freqNode` back-reference is represented by membership of the key in a
bucket's `entries`. -/
structure Item (V : Type) where
  value : V
  size : ℚ
  hits : ℚ
  priorityKey : Pri
deriving DecidableEq

/-- The `listEntry` struct: one node of the frequency list, holding the
set of items (represented by their keys) that share `priorityKey`.  Go
stores the members in a `map[*item]byte` with no order; we use a list
whose head plays the role of Go's arbitrary map-iteration choice. -/
structure Bucket (K : Type) where
  priorityKey : Pri
  entries : List K
deriving DecidableEq

/-- The `LFUDA` struct.  `freqs` is the frequency list with the Go list's
front at the head. -/
structure LFUDA (K V : Type) where
  size : ℚ
  currSize : ℚ
  items : List (K × Item V)
  freqs : List (Bucket K)
  age : Pri
  policy : Policy
deriving DecidableEq

variable {K V : Type} [DecidableEq K]

/-- Lookup in the key index `l.items` (Go map access `l.items[key]`). -/
def lookupItem (k : K) : List (K × Item V) → Option (Item V)
  | [] => none
  | (k', it) :: rest => if k' = k then some it else lookupItem k rest

/-- In-place mutation of the item stored under `k` (Go mutates through the
`*item` pointer held by the map). -/
def updateItem (k : K) (f : Item V → Item V) (l : List (K × Item V)) :
    List (K × Item V) :=
  l.map fun p => if p.1 = k then (p.1, f p.2) else p

/-- Deletion from the key index (Go `delete(l.items, key)`). -/
def eraseItem (k : K) (l : List (K × Item V)) : List (K × Item V) :=
  l.filter fun p => decide ¬(p.1 = k)

/-- All keys held by the buckets of a frequency list, front to back. -/
def bucketKeys (bs : List (Bucket K)) : List K :=
  (bs.map Bucket.entries).flatten

/-- The forward placement scan of `increment`, starting at a given point
of the frequency list: if the candidate node is past the back or has a
larger priority key, create a fresh node for the item there; if it has
the same priority key, join it; otherwise keep scanning. -/
def placeFrom (pk : Pri) (k : K) : List (Bucket K) → List (Bucket K)
  | [] => [⟨pk, [k]⟩]
  | b :: rest =>
    if b.priorityKey > pk then ⟨pk, [k]⟩ :: b :: rest
    else if b.priorityKey = pk then ⟨b.priorityKey, k :: b.entries⟩ :: rest
    else b :: placeFrom pk k rest

/-- `remEntry`: remove the item from the bucket that holds it and drop the
bucket from the frequency list if it became empty. -/
def remEntry (k : K) : List (Bucket K) → List (Bucket K)
  | [] => []
  | b :: rest =>
    if k ∈ b.entries then
      if (b.entries.erase k).isEmpty then rest
      else ⟨b.priorityKey, b.entries.erase k⟩ :: rest
    else b :: remEntry k rest

/-- The frequency-list update of `increment` for an item that already sits
in a bucket (`freqNode ≠ nil`): the scan starts at the old bucket's
successor, the new position is created at or after that point, and only
afterwards is the item removed from its old bucket, which is dropped if it
became empty. -/
def placeExisting (pk : Pri) (k : K) : List (Bucket K) → List (Bucket K)
  | [] => []
  | b :: rest =>
    if k ∈ b.entries then
      if (b.entries.erase k).isEmpty then placeFrom pk k rest
      else ⟨b.priorityKey, b.entries.erase k⟩ :: placeFrom pk k rest
    else b :: placeExisting pk k rest

/-- Full frequency-list update of `increment`: Go branches on
`e.freqNode == nil`, which holds exactly when the key is in no bucket. -/
def incrFreqs (pk : Pri) (k : K) (bs : List (Bucket K)) : List (Bucket K) :=
  if bs.any fun b => decide (k ∈ b.entries) then placeExisting pk k bs
  else placeFrom pk k bs

/-- `increment`: raise the item's hit count, recompute its priority key
with the current age, and replace it in the frequency list.  The source
only ever calls it on an item already present in the key index. -/
def increment (l : LFUDA K V) (k : K) : LFUDA K V :=
  match lookupItem k l.items with
  | none => l
  | some it =>
    let pk := applyPolicy l.policy (it.hits + 1) it.size l.age
    { l with
      items := updateItem k
        (fun i => { i with hits := it.hits + 1, priorityKey := pk }) l.items
      freqs := incrFreqs pk k l.freqs }

/-- `Remove`: drop the item from the key index, from its bucket, and
subtract its size from `currSize`; report whether the key was present. -/
def remove (l : LFUDA K V) (k : K) : LFUDA K V × Bool :=
  match lookupItem k l.items with
  | some it =>
    ({ l with
        items := eraseItem k l.items
        freqs := remEntry k l.freqs
        currSize := l.currSize - it.size }, true)
  | none => (l, false)

/-- `evict`: take a member of the front bucket (Go ranges over the
`entries` map, so the member is arbitrary; we model the choice as the list
head), assign `age` to the victim's `priorityKey`, and remove the victim
exactly as `Remove` would.  Returns `false` when there is nothing to
evict. -/
def evict (l : LFUDA K V) : LFUDA K V × Bool :=
  match l.freqs with
  | [] => (l, false)
  | b :: _ =>
    match b.entries with
    | [] => (l, false)
    | v :: _ =>
      match lookupItem v l.items with
      | none => (l, false)
      | some it => ((remove { l with age := it.priorityKey } v).1, true)

/-- The admission loop of `Set`: `for { if currSize+numBytes > size
{ evict(); evicted = true } else break } }`.  The Go loop has no fuel; we
give it `items.length + 1` steps, which suffices on every state whose
`currSize` is the sum of the item sizes (each iteration removes one item,
and on the empty cache the guard is false because `numBytes ≤ size`). -/
def evictLoop (numBytes : ℚ) : ℕ → LFUDA K V → Bool → LFUDA K V × Bool
  | 0, l, ev => (l, ev)
  | fuel + 1, l, ev =>
    if l.currSize + numBytes > l.size then
      evictLoop numBytes fuel (evict l).1 true
    else (l, ev)

variable (szOf : V → ℕ)

/-- `Set`: overwrite-and-increment when the key is present; otherwise
compute the byte size of the value (`len([]byte(fmt.Sprintf("%v", v)))`,
abstracted as `szOf`), reject silently when it exceeds the capacity, evict
until the value fits, then insert a fresh item (hits 0, no bucket) and
increment it.  Returns whether the admission loop ran. -/
def set (l : LFUDA K V) (k : K) (v : V) : LFUDA K V × Bool :=
  match lookupItem k l.items with
  | some _ =>
    (increment { l with items := updateItem k (fun i => { i with value := v }) l.items } k,
      false)
  | none =>
    let numBytes : ℚ := (szOf v : ℚ)
    if l.size < numBytes then (l, false)
    else
      let r := evictLoop numBytes (l.items.length + 1) l false
      let it : Item V := { value := v, size := numBytes, hits := 0, priorityKey := 0 }
      (increment { r.1 with
          items := (k, it) :: r.1.items
          currSize := r.1.currSize + numBytes } k, r.2)

/-- `Get`: increment on a hit and return the value with a found flag. -/
def get (l : LFUDA K V) (k : K) : LFUDA K V × Option V :=
  match lookupItem k l.items with
  | some it => (increment l k, some it.value)
  | none => (l, none)

/-- `Peek`: return the value without touching anything. -/
def peek (l : LFUDA K V) (k : K) : Option V :=
  match lookupItem k l.items with
  | some it => some it.value
  | none => none

/-- `Contains`: pure presence check. -/
def containsKey (l : LFUDA K V) (k : K) : Bool :=
  (lookupItem k l.items).isSome

/-- `Len`: number of items in the key index. -/
def len (l : LFUDA K V) : ℕ :=
  l.items.length

/-- `Size`: the current byte load `currSize`. -/
def cacheSize (l : LFUDA K V) : ℚ :=
  l.currSize

/-- `Age`: the cache age factor. -/
def cacheAge (l : LFUDA K V) : Pri :=
  l.age

/-- `Keys`: walk the frequency list back to front and list the members of
each bucket (Go map order within a bucket, modelled by the list order). -/
def keys (l : LFUDA K V) : List K :=
  (l.freqs.reverse.map Bucket.entries).flatten

/-- `Purge`: drop every item, clear the frequency list, reset the age and
the current size to 0. -/
def purge (l : LFUDA K V) : LFUDA K V :=
  { l with items := [], freqs := [], age := 0, currSize := 0 }

/-- A fresh cache with the given byte capacity and policy (the common body
of the `NewLFUDA` and `NewGDSF` constructors). -/
def newCache (cap : ℚ) (pol : Policy) : LFUDA K V :=
  { size := cap, currSize := 0, items := [], freqs := [], age := 0, policy := pol }

/-- `NewLFUDA`. -/
def newLFUDA (cap : ℚ) : LFUDA K V := newCache cap .lfuda

/-- `NewGDSF`. -/
def newGDSF (cap : ℚ) : LFUDA K V := newCache cap .gdsf

/-- The public operation surface of the engine. -/
inductive Op (K V : Type) where
  | set (k : K) (v : V)
  | get (k : K)
  | peek (k : K)
  | contains (k : K)
  | remove (k : K)
  | purge
  | keys
  | len
  | size
  | age
deriving DecidableEq

/-- State effect of one public operation (`Peek`, `Contains`, `Keys`,
`Len`, `Size` and `Age` read without mutating). -/
def step (l : LFUDA K V) : Op K V → LFUDA K V
  | .set k v => (set szOf l k v).1
  | .get k => (get l k).1
  | .peek _ => l
  | .contains _ => l
  | .remove k => (remove l k).1
  | .purge => purge l
  | .keys => l
  | .len => l
  | .size => l
  | .age => l

/-- Run a sequence of public operations. -/
def run (l : LFUDA K V) (ops : List (Op K V)) : LFUDA K V :=
  ops.foldl (step szOf) l

/-- The states an engine of a given policy can actually be in: any
operation sequence applied to a fresh cache. -/
def Reachable (l : LFUDA K V) : Prop :=
  ∃ (cap : ℚ) (pol : Policy) (ops : List (Op K V)),
    run szOf (newCache cap pol) ops = l

/-- Bucket order by priority key (weak). -/
abbrev bucketLE (a b : Bucket K) : Prop := a.priorityKey ≤ b.priorityKey

/-- Bucket order by priority key (strict). -/
abbrev bucketLT (a b : Bucket K) : Prop := a.priorityKey < b.priorityKey

/-- The core representation invariant of the engine, shared by every call
site of `increment` (during the fresh-insert path of `Set` the new item is
already in the key index but not yet in a bucket, so the two bucket-facing
clauses about it are listed separately in `Inv`). -/
structure InvCore (l : LFUDA K V) : Prop where
  sorted : l.freqs.Pairwise bucketLE
  nonempty : ∀ b ∈ l.freqs, b.entries ≠ []
  toItems : ∀ b ∈ l.freqs, ∀ k ∈ b.entries, ∃ it,
    lookupItem k l.items = some it ∧ it.priorityKey = b.priorityKey
  bucketNodup : (bucketKeys l.freqs).Nodup
  itemsNodup : (l.items.map Prod.fst).Nodup
  priLe : ∀ p ∈ l.items,
    p.2.priorityKey ≤ applyPolicy l.policy p.2.hits p.2.size l.age
  hitsNonneg : ∀ p ∈ l.items, 0 ≤ p.2.hits
  sizeNonneg : ∀ p ∈ l.items, 0 ≤ p.2.size
  currSizeEq : l.currSize = (l.items.map fun p => p.2.size).sum
  ageNonneg : 0 ≤ l.age

/-- The full representation invariant: additionally every indexed item
sits in a bucket, and the age is a lower bound on every priority key
(spec I5/I6 machinery). -/
structure Inv (l : LFUDA K V) extends InvCore l : Prop where
  toBuckets : ∀ k it, lookupItem k l.items = some it → k ∈ bucketKeys l.freqs
  ageLe : ∀ p ∈ l.items, l.age ≤ p.2.priorityKey

/-- The strict part of spec invariant I2 together with the side conditions
that keep it inductive: priority keys stay finite and, under GDSF, item
sizes stay positive. -/
structure SInv (l : LFUDA K V) : Prop where
  ssorted : l.freqs.Pairwise bucketLT
  ageNe : l.age ≠ ⊤
  priNe : ∀ p ∈ l.items, p.2.priorityKey ≠ ⊤
  posSizes : l.policy = .gdsf → ∀ p ∈ l.items, 0 < p.2.size

/-- Guard on an operation sequence: under GDSF every value passed to `Set`
has positive byte size. -/
def GoodOps (pol : Policy) (ops : List (Op K V)) : Prop :=
  ∀ op ∈ ops, ∀ k v, op = Op.set k v → pol = .gdsf → 0 < szOf v

/-- The byte-size function for string values: Go computes
`len([]byte(fmt.Sprintf("%v", value)))`, and the `%v` rendering of a
string is the string itself, so the byte size is its length. -/
def strSize : String → ℕ := String.length

/-! ### Key-index (association list) lemmas -/

theorem lookupItem_isSome_iff {k : K} {l : List (K × Item V)} :
    (∃ it, lookupItem k l = some it) ↔ k ∈ l.map Prod.fst := by
  induction l with
  | nil => simp [lookupItem]
  | cons p rest ih =>
    obtain ⟨k', it⟩ := p
    by_cases h : k' = k
    · subst h
      simp [lookupItem]
    · simp [lookupItem, h, ih, Ne.symm h]

theorem lookupItem_eq_none_iff {k : K} {l : List (K × Item V)} :
    lookupItem k l = none ↔ k ∉ l.map Prod.fst := by
  rw [← lookupItem_isSome_iff]
  cases h : lookupItem k l <;> simp [h]

theorem lookupItem_mem {k : K} {it : Item V} {l : List (K × Item V)} :
    lookupItem k l = some it → (k, it) ∈ l := by
  induction l with
  | nil => simp [lookupItem]
  | cons p rest ih =>
    obtain ⟨k', it'⟩ := p
    by_cases h : k' = k
    · subst h
      simp only [lookupItem, if_pos rfl]
      rintro ⟨rfl⟩
      exact List.mem_cons_self _ _
    · simp only [lookupItem, if_neg h]
      intro hl
      exact List.mem_cons_of_mem _ (ih hl)

theorem mem_lookupItem_of_nodup {k : K} {it : Item V} {l : List (K × Item V)}
    (hnd : (l.map Prod.fst).Nodup) (hm : (k, it) ∈ l) :
    lookupItem k l = some it := by
  induction l with
  | nil => simp at hm
  | cons p rest ih =>
    obtain ⟨k', it'⟩ := p
    simp only [List.map_cons, List.nodup_cons] at hnd
    rcases List.mem_cons.mp hm with h | h
    · obtain ⟨rfl, rfl⟩ := Prod.mk.injEq .. ▸ h
      simp [lookupItem]
    · have hk : k' ≠ k := by
        rintro rfl
        exact hnd.1 (List.mem_map.mpr ⟨(k', it), h, rfl⟩)
      simp only [lookupItem, if_neg hk]
      exact ih hnd.2 h

theorem updateItem_cons_eq (k : K) (f : Item V → Item V) (it : Item V)
    (rest : List (K × Item V)) :
    updateItem k f ((k, it) :: rest) = (k, f it) :: updateItem k f rest := by
  simp [updateItem]

theorem updateItem_cons_ne {k' k : K} (h : k' ≠ k) (f : Item V → Item V)
    (it : Item V) (rest : List (K × Item V)) :
    updateItem k f ((k', it) :: rest) = (k', it) :: updateItem k f rest := by
  simp [updateItem, h]

theorem map_fst_updateItem (k : K) (f : Item V → Item V) (l : List (K × Item V)) :
    (updateItem k f l).map Prod.fst = l.map Prod.fst := by
  induction l with
  | nil => rfl
  | cons p rest ih =>
    obtain ⟨k', it⟩ := p
    by_cases h : k' = k
    · subst h
      rw [updateItem_cons_eq]
      simp [ih]
    · rw [updateItem_cons_ne h]
      simp [ih]

theorem lookupItem_updateItem_self (k : K) (f : Item V → Item V)
    (l : List (K × Item V)) :
    lookupItem k (updateItem k f l) = (lookupItem k l).map f := by
  induction l with
  | nil => rfl
  | cons p rest ih =>
    obtain ⟨k', it⟩ := p
    by_cases h : k' = k
    · subst h
      rw [updateItem_cons_eq]
      simp [lookupItem]
    · rw [updateItem_cons_ne h]
      simp [lookupItem, h, ih]

theorem lookupItem_updateItem_ne {k' k : K} (h : k' ≠ k) (f : Item V → Item V)
    (l : List (K × Item V)) :
    lookupItem k (updateItem k' f l) = lookupItem k l := by
  induction l with
  | nil => rfl
  | cons p rest ih =>
    obtain ⟨k'', it⟩ := p
    by_cases h1 : k'' = k'
    · subst h1
      rw [updateItem_cons_eq]
      have hk : k'' ≠ k := h
      simp [lookupItem, hk, ih]
    · rw [updateItem_cons_ne h1]
      by_cases h2 : k'' = k
      · subst h2
        simp [lookupItem]
      · simp [lookupItem, h2, ih]

theorem mem_updateItem {k : K} {f : Item V → Item V} {l : List (K × Item V)}
    {p : K × Item V} (hp : p ∈ updateItem k f l) :
    (p.1 ≠ k ∧ p ∈ l) ∨ (p.1 = k ∧ ∃ it, (k, it) ∈ l ∧ p.2 = f it) := by
  rcases List.mem_map.mp hp with ⟨q, hq, hmap⟩
  by_cases h : q.1 = k
  · refine Or.inr ?_
    rw [if_pos h] at hmap
    subst h
    refine ⟨by simp [← hmap], q.2, hq, by simp [← hmap]⟩
  · refine Or.inl ?_
    rw [if_neg h] at hmap
    subst hmap
    exact ⟨h, hq⟩

theorem map_size_updateItem (k : K) (f : Item V → Item V)
    (hf : ∀ it, (f it).size = it.size) (l : List (K × Item V)) :
    (updateItem k f l).map (fun p => p.2.size) = l.map (fun p => p.2.size) := by
  induction l with
  | nil => rfl
  | cons p rest ih =>
    obtain ⟨k', it⟩ := p
    by_cases h : k' = k
    · subst h
      rw [updateItem_cons_eq]
      simp [hf, ih]
    · rw [updateItem_cons_ne h]
      simp [ih]

theorem eraseItem_sublist (k : K) (l : List (K × Item V)) :
    (eraseItem k l).Sublist l :=
  List.filter_sublist l

theorem lookupItem_eraseItem_self (k : K) (l : List (K × Item V)) :
    lookupItem k (eraseItem k l) = none := by
  rw [lookupItem_eq_none_iff]
  intro hm
  rcases List.mem_map.mp hm with ⟨p, hp, rfl⟩
  rcases List.mem_filter.mp hp with ⟨-, hne⟩
  simp at hne

theorem eraseItem_cons_eq (k : K) (it : Item V) (rest : List (K × Item V)) :
    eraseItem k ((k, it) :: rest) = eraseItem k rest := by
  simp [eraseItem, List.filter_cons]

theorem eraseItem_cons_ne {k' k : K} (h : k' ≠ k) (it : Item V)
    (rest : List (K × Item V)) :
    eraseItem k ((k', it) :: rest) = (k', it) :: eraseItem k rest := by
  simp [eraseItem, List.filter_cons, h]

theorem lookupItem_eraseItem_ne {k' k : K} (h : k' ≠ k) (l : List (K × Item V)) :
    lookupItem k (eraseItem k' l) = lookupItem k l := by
  induction l with
  | nil => rfl
  | cons p rest ih =>
    obtain ⟨k'', it⟩ := p
    by_cases h1 : k'' = k'
    · subst h1
      rw [eraseItem_cons_eq]
      have hk : k'' ≠ k := h
      simp [lookupItem, hk, ih]
    · rw [eraseItem_cons_ne h1]
      by_cases h2 : k'' = k
      · subst h2
        simp [lookupItem]
      · simp [lookupItem, h2, ih]

theorem perm_cons_eraseItem {k : K} {it : Item V} {l : List (K × Item V)}
    (hnd : (l.map Prod.fst).Nodup) (hl : lookupItem k l = some it) :
    l.Perm ((k, it) :: eraseItem k l) := by
  induction l with
  | nil => simp [lookupItem] at hl
  | cons p rest ih =>
    obtain ⟨k', it'⟩ := p
    simp only [List.map_cons, List.nodup_cons] at hnd
    by_cases h : k' = k
    · subst h
      simp only [lookupItem, if_pos rfl] at hl
      obtain ⟨rfl⟩ := hl
      have he : eraseItem k' ((k', it) :: rest) = rest := by
        rw [eraseItem_cons_eq]
        apply List.filter_eq_self.mpr
        intro p hp
        simp only [decide_eq_true_eq]
        rintro rfl
        exact hnd.1 (List.mem_map.mpr ⟨p, hp, rfl⟩)
      rw [he]
    · simp only [lookupItem, if_neg h] at hl
      rw [eraseItem_cons_ne h]
      exact ((ih hnd.2 hl).cons _).trans (List.Perm.swap _ _ _)

/-! ### Frequency-list lemmas: `placeFrom` -/

theorem bucketKeys_nil : bucketKeys ([] : List (Bucket K)) = [] := rfl

theorem bucketKeys_cons (b : Bucket K) (bs : List (Bucket K)) :
    bucketKeys (b :: bs) = b.entries ++ bucketKeys bs := by
  simp [bucketKeys]

theorem placeFrom_perm (pk : Pri) (k : K) (bs : List (Bucket K)) :
    (bucketKeys (placeFrom pk k bs)).Perm (k :: bucketKeys bs) := by
  induction bs with
  | nil => simp [placeFrom, bucketKeys]
  | cons b rest ih =>
    by_cases h1 : b.priorityKey > pk
    · simp only [placeFrom, if_pos h1]
      rw [bucketKeys_cons, bucketKeys_cons]
      simp
    · by_cases h2 : b.priorityKey = pk
      · simp only [placeFrom, if_neg h1, if_pos h2]
        rw [bucketKeys_cons, bucketKeys_cons]
        simp
      · simp only [placeFrom, if_neg h1, if_neg h2]
        rw [bucketKeys_cons, bucketKeys_cons]
        exact (List.Perm.append_left _ ih).trans List.perm_middle

theorem placeFrom_entry_origin {pk : Pri} {k : K} {bs : List (Bucket K)} :
    ∀ b' ∈ placeFrom pk k bs, ∀ k' ∈ b'.entries,
      (k' = k ∧ b'.priorityKey = pk) ∨
      ∃ b ∈ bs, k' ∈ b.entries ∧ b'.priorityKey = b.priorityKey := by
  induction bs with
  | nil =>
    intro b' hb' k' hk'
    simp [placeFrom] at hb'
    subst hb'
    simp at hk'
    exact Or.inl ⟨hk', rfl⟩
  | cons b rest ih =>
    intro b' hb' k' hk'
    by_cases h1 : b.priorityKey > pk
    · simp only [placeFrom, if_pos h1] at hb'
      rcases List.mem_cons.mp hb' with rfl | hb'
      · simp at hk'
        exact Or.inl ⟨hk', rfl⟩
      · exact Or.inr ⟨b', hb', hk', rfl⟩
    · by_cases h2 : b.priorityKey = pk
      · simp only [placeFrom, if_neg h1, if_pos h2] at hb'
        rcases List.mem_cons.mp hb' with rfl | hb'
        · rcases List.mem_cons.mp hk' with rfl | hk'
          · exact Or.inl ⟨rfl, h2⟩
          · exact Or.inr ⟨b, List.mem_cons_self _ _, hk', rfl⟩
        · exact Or.inr ⟨b', List.mem_cons_of_mem _ hb', hk', rfl⟩
      · simp only [placeFrom, if_neg h1, if_neg h2] at hb'
        rcases List.mem_cons.mp hb' with rfl | hb'
        · exact Or.inr ⟨b', List.mem_cons_self _ _, hk', rfl⟩
        · rcases ih b' hb' k' hk' with h | ⟨b'', hb'', hk'', hpk⟩
          · exact Or.inl h
          · exact Or.inr ⟨b'', List.mem_cons_of_mem _ hb'', hk'', hpk⟩

theorem placeFrom_pk_origin {pk : Pri} {k : K} {bs : List (Bucket K)} :
    ∀ b' ∈ placeFrom pk k bs,
      b'.priorityKey = pk ∨ ∃ b ∈ bs, b'.priorityKey = b.priorityKey := by
  induction bs with
  | nil =>
    intro b' hb'
    simp [placeFrom] at hb'
    subst hb'
    exact Or.inl rfl
  | cons b rest ih =>
    intro b' hb'
    by_cases h1 : b.priorityKey > pk
    · simp only [placeFrom, if_pos h1] at hb'
      rcases List.mem_cons.mp hb' with rfl | hb'
      · exact Or.inl rfl
      · exact Or.inr ⟨b', hb', rfl⟩
    · by_cases h2 : b.priorityKey = pk
      · simp only [placeFrom, if_neg h1, if_pos h2] at hb'
        rcases List.mem_cons.mp hb' with rfl | hb'
        · exact Or.inl h2
        · exact Or.inr ⟨b', List.mem_cons_of_mem _ hb', rfl⟩
      · simp only [placeFrom, if_neg h1, if_neg h2] at hb'
        rcases List.mem_cons.mp hb' with rfl | hb'
        · exact Or.inr ⟨b', List.mem_cons_self _ _, rfl⟩
        · rcases ih b' hb' with h | ⟨b'', hb'', hpk⟩
          · exact Or.inl h
          · exact Or.inr ⟨b'', List.mem_cons_of_mem _ hb'', hpk⟩

theorem placeFrom_nonempty {pk : Pri} {k : K} {bs : List (Bucket K)}
    (h : ∀ b ∈ bs, b.entries ≠ []) :
    ∀ b' ∈ placeFrom pk k bs, b'.entries ≠ [] := by
  induction bs with
  | nil =>
    intro b' hb'
    simp [placeFrom] at hb'
    subst hb'
    simp
  | cons b rest ih =>
    intro b' hb'
    by_cases h1 : b.priorityKey > pk
    · simp only [placeFrom, if_pos h1] at hb'
      rcases List.mem_cons.mp hb' with rfl | hb'
      · simp
      · exact h b' hb'
    · by_cases h2 : b.priorityKey = pk
      · simp only [placeFrom, if_neg h1, if_pos h2] at hb'
        rcases List.mem_cons.mp hb' with rfl | hb'
        · simp
        · exact h b' (List.mem_cons_of_mem _ hb')
      · simp only [placeFrom, if_neg h1, if_neg h2] at hb'
        rcases List.mem_cons.mp hb' with rfl | hb'
        · exact h b' (List.mem_cons_self _ _)
        · exact ih (fun b'' hb'' => h b'' (List.mem_cons_of_mem _ hb'')) b' hb'

theorem placeFrom_pairwise_le {pk : Pri} {k : K} {bs : List (Bucket K)}
    (hs : bs.Pairwise bucketLE) : (placeFrom pk k bs).Pairwise bucketLE := by
  induction bs with
  | nil => simp [placeFrom]
  | cons b rest ih =>
    rw [List.pairwise_cons] at hs
    by_cases h1 : b.priorityKey > pk
    · simp only [placeFrom, if_pos h1]
      rw [List.pairwise_cons]
      refine ⟨?_, List.pairwise_cons.mpr hs⟩
      intro b' hb'
      rcases List.mem_cons.mp hb' with rfl | hb'
      · exact le_of_lt h1
      · exact le_trans (le_of_lt h1) (hs.1 b' hb')
    · by_cases h2 : b.priorityKey = pk
      · simp only [placeFrom, if_neg h1, if_pos h2]
        rw [List.pairwise_cons]
        exact ⟨fun b' hb' => hs.1 b' hb', hs.2⟩
      · have hlt : b.priorityKey < pk := lt_of_le_of_ne (le_of_not_lt h1) h2
        simp only [placeFrom, if_neg h1, if_neg h2]
        rw [List.pairwise_cons]
        refine ⟨?_, ih hs.2⟩
        intro b' hb'
        rcases placeFrom_pk_origin b' hb' with hpk | ⟨b'', hb'', hpk⟩
        · show b.priorityKey ≤ b'.priorityKey
          rw [hpk]
          exact le_of_lt hlt
        · show b.priorityKey ≤ b'.priorityKey
          rw [hpk]
          exact hs.1 b'' hb''

theorem placeFrom_pairwise_lt {pk : Pri} {k : K} {bs : List (Bucket K)}
    (hs : bs.Pairwise bucketLT) : (placeFrom pk k bs).Pairwise bucketLT := by
  induction bs with
  | nil => simp [placeFrom]
  | cons b rest ih =>
    rw [List.pairwise_cons] at hs
    by_cases h1 : b.priorityKey > pk
    · simp only [placeFrom, if_pos h1]
      rw [List.pairwise_cons]
      refine ⟨?_, List.pairwise_cons.mpr hs⟩
      intro b' hb'
      rcases List.mem_cons.mp hb' with rfl | hb'
      · exact h1
      · exact lt_trans h1 (hs.1 b' hb')
    · by_cases h2 : b.priorityKey = pk
      · simp only [placeFrom, if_neg h1, if_pos h2]
        rw [List.pairwise_cons]
        exact ⟨fun b' hb' => hs.1 b' hb', hs.2⟩
      · have hlt : b.priorityKey < pk := lt_of_le_of_ne (le_of_not_lt h1) h2
        simp only [placeFrom, if_neg h1, if_neg h2]
        rw [List.pairwise_cons]
        refine ⟨?_, ih hs.2⟩
        intro b' hb'
        rcases placeFrom_pk_origin b' hb' with hpk | ⟨b'', hb'', hpk⟩
        · show b.priorityKey < b'.priorityKey
          rw [hpk]
          exact hlt
        · show b.priorityKey < b'.priorityKey
          rw [hpk]
          exact hs.1 b'' hb''

/-! ### Frequency-list lemmas: `remEntry` -/

theorem remEntry_of_not_mem {k : K} {bs : List (Bucket K)}
    (h : k ∉ bucketKeys bs) : remEntry k bs = bs := by
  induction bs with
  | nil => rfl
  | cons b rest ih =>
    rw [bucketKeys_cons] at h
    have hb : k ∉ b.entries := fun hm => h (List.mem_append.mpr (Or.inl hm))
    have hr : k ∉ bucketKeys rest := fun hm => h (List.mem_append.mpr (Or.inr hm))
    simp only [remEntry, if_neg hb]
    rw [ih hr]

theorem remEntry_perm {k : K} {bs : List (Bucket K)}
    (h : k ∈ bucketKeys bs) :
    (bucketKeys bs).Perm (k :: bucketKeys (remEntry k bs)) := by
  induction bs with
  | nil => simp [bucketKeys] at h
  | cons b rest ih =>
    by_cases hb : k ∈ b.entries
    · simp only [remEntry, if_pos hb]
      by_cases he : (b.entries.erase k).isEmpty
      · rw [if_pos he, bucketKeys_cons]
        have h1 : b.entries.Perm (k :: b.entries.erase k) := List.perm_cons_erase hb
        have h2 : b.entries.erase k = [] := List.isEmpty_iff.mp he
        rw [h2] at h1
        exact (h1.append_right _).trans (by simp)
      · rw [if_neg he, bucketKeys_cons, bucketKeys_cons]
        have h1 : b.entries.Perm (k :: b.entries.erase k) := List.perm_cons_erase hb
        exact (h1.append_right _).trans (by simp)
    · have hr : k ∈ bucketKeys rest := by
        rw [bucketKeys_cons] at h
        rcases List.mem_append.mp h with h' | h'
        · exact absurd h' hb
        · exact h'
      simp only [remEntry, if_neg hb]
      rw [bucketKeys_cons, bucketKeys_cons]
      exact ((ih hr).append_left _).trans List.perm_middle

theorem remEntry_map_pk_sublist (k : K) (bs : List (Bucket K)) :
    ((remEntry k bs).map Bucket.priorityKey).Sublist (bs.map Bucket.priorityKey) := by
  induction bs with
  | nil => simp [remEntry]
  | cons b rest ih =>
    by_cases hb : k ∈ b.entries
    · simp only [remEntry, if_pos hb]
      by_cases he : (b.entries.erase k).isEmpty
      · rw [if_pos he]
        simp only [List.map_cons]
        exact List.sublist_cons_self _ _
      · rw [if_neg he]
        simp only [List.map_cons]
        exact List.Sublist.cons₂ _ (List.Sublist.refl _)
    · simp only [remEntry, if_neg hb, List.map_cons]
      exact List.Sublist.cons₂ _ ih

theorem remEntry_pairwise {R : Pri → Pri → Prop} {k : K} {bs : List (Bucket K)}
    (hs : bs.Pairwise fun a b => R a.priorityKey b.priorityKey) :
    (remEntry k bs).Pairwise fun a b => R a.priorityKey b.priorityKey := by
  have h1 : (bs.map Bucket.priorityKey).Pairwise R := List.pairwise_map.mpr hs
  have h2 := List.Pairwise.sublist (remEntry_map_pk_sublist k bs) h1
  exact List.pairwise_map.mp h2

theorem remEntry_entry_origin {k : K} {bs : List (Bucket K)} :
    ∀ b' ∈ remEntry k bs, ∀ k' ∈ b'.entries,
      ∃ b ∈ bs, k' ∈ b.entries ∧ b'.priorityKey = b.priorityKey := by
  induction bs with
  | nil => simp [remEntry]
  | cons b rest ih =>
    intro b' hb' k' hk'
    by_cases hb : k ∈ b.entries
    · simp only [remEntry, if_pos hb] at hb'
      by_cases he : (b.entries.erase k).isEmpty
      · rw [if_pos he] at hb'
        exact ⟨b', List.mem_cons_of_mem _ hb', hk', rfl⟩
      · rw [if_neg he] at hb'
        rcases List.mem_cons.mp hb' with rfl | hb'
        · exact ⟨b, List.mem_cons_self _ _, List.mem_of_mem_erase hk', rfl⟩
        · exact ⟨b', List.mem_cons_of_mem _ hb', hk', rfl⟩
    · simp only [remEntry, if_neg hb] at hb'
      rcases List.mem_cons.mp hb' with rfl | hb'
      · exact ⟨b', List.mem_cons_self _ _, hk', rfl⟩
      · rcases ih b' hb' k' hk' with ⟨b'', hb'', hk'', hpk⟩
        exact ⟨b'', List.mem_cons_of_mem _ hb'', hk'', hpk⟩

theorem remEntry_nonempty {k : K} {bs : List (Bucket K)}
    (h : ∀ b ∈ bs, b.entries ≠ []) :
    ∀ b' ∈ remEntry k bs, b'.entries ≠ [] := by
  induction bs with
  | nil => simp [remEntry]
  | cons b rest ih =>
    intro b' hb'
    by_cases hb : k ∈ b.entries
    · simp only [remEntry, if_pos hb] at hb'
      by_cases he : (b.entries.erase k).isEmpty
      · rw [if_pos he] at hb'
        exact h b' (List.mem_cons_of_mem _ hb')
      · rw [if_neg he] at hb'
        rcases List.mem_cons.mp hb' with rfl | hb'
        · intro hc
          rw [List.isEmpty_iff] at he
          exact he hc
        · exact h b' (List.mem_cons_of_mem _ hb')
    · simp only [remEntry, if_neg hb] at hb'
      rcases List.mem_cons.mp hb' with rfl | hb'
      · exact h b' (List.mem_cons_self _ _)
      · exact ih (fun b'' hb'' => h b'' (List.mem_cons_of_mem _ hb'')) b' hb'

theorem bucketKeys_remEntry_nodup {k : K} {bs : List (Bucket K)}
    (hnd : (bucketKeys bs).Nodup) : (bucketKeys (remEntry k bs)).Nodup := by
  by_cases h : k ∈ bucketKeys bs
  · have := (remEntry_perm h).nodup_iff.mp hnd
    exact (List.nodup_cons.mp this).2
  · rw [remEntry_of_not_mem h]
    exact hnd

theorem not_mem_bucketKeys_remEntry {k : K} {bs : List (Bucket K)}
    (hnd : (bucketKeys bs).Nodup) : k ∉ bucketKeys (remEntry k bs) := by
  by_cases h : k ∈ bucketKeys bs
  · have := (remEntry_perm h).nodup_iff.mp hnd
    exact (List.nodup_cons.mp this).1
  · rw [remEntry_of_not_mem h]
    exact h

/-! ### Frequency-list lemmas: `placeExisting` and `incrFreqs` -/

theorem placeExisting_perm {pk : Pri} {k : K} {bs : List (Bucket K)}
    (h : k ∈ bucketKeys bs) :
    (bucketKeys (placeExisting pk k bs)).Perm (bucketKeys bs) := by
  induction bs with
  | nil => simp [bucketKeys] at h
  | cons b rest ih =>
    by_cases hb : k ∈ b.entries
    · simp only [placeExisting, if_pos hb]
      have hperm : b.entries.Perm (k :: b.entries.erase k) := List.perm_cons_erase hb
      by_cases he : (b.entries.erase k).isEmpty
      · rw [if_pos he]
        have h2 : b.entries.erase k = [] := List.isEmpty_iff.mp he
        rw [bucketKeys_cons]
        refine (placeFrom_perm pk k rest).trans ?_
        refine List.Perm.symm ?_
        refine (hperm.append_right _).trans ?_
        rw [h2]
        simp
      · rw [if_neg he, bucketKeys_cons, bucketKeys_cons]
        exact ((List.Perm.append_left _ (placeFrom_perm pk k rest)).trans
          List.perm_middle).trans (hperm.append_right _).symm
    · have hr : k ∈ bucketKeys rest := by
        rw [bucketKeys_cons] at h
        rcases List.mem_append.mp h with h' | h'
        · exact absurd h' hb
        · exact h'
      simp only [placeExisting, if_neg hb]
      rw [bucketKeys_cons, bucketKeys_cons]
      exact (ih hr).append_left _

theorem placeExisting_pk_origin {pk : Pri} {k : K} {bs : List (Bucket K)} :
    ∀ b' ∈ placeExisting pk k bs,
      b'.priorityKey = pk ∨ ∃ b ∈ bs, b'.priorityKey = b.priorityKey := by
  induction bs with
  | nil => simp [placeExisting]
  | cons b rest ih =>
    intro b' hb'
    by_cases hb : k ∈ b.entries
    · simp only [placeExisting, if_pos hb] at hb'
      by_cases he : (b.entries.erase k).isEmpty
      · rw [if_pos he] at hb'
        rcases placeFrom_pk_origin b' hb' with h | ⟨b'', hb'', hpk⟩
        · exact Or.inl h
        · exact Or.inr ⟨b'', List.mem_cons_of_mem _ hb'', hpk⟩
      · rw [if_neg he] at hb'
        rcases List.mem_cons.mp hb' with rfl | hb'
        · exact Or.inr ⟨b, List.mem_cons_self _ _, rfl⟩
        · rcases placeFrom_pk_origin b' hb' with h | ⟨b'', hb'', hpk⟩
          · exact Or.inl h
          · exact Or.inr ⟨b'', List.mem_cons_of_mem _ hb'', hpk⟩
    · simp only [placeExisting, if_neg hb] at hb'
      rcases List.mem_cons.mp hb' with rfl | hb'
      · exact Or.inr ⟨b', List.mem_cons_self _ _, rfl⟩
      · rcases ih b' hb' with h | ⟨b'', hb'', hpk⟩
        · exact Or.inl h
        · exact Or.inr ⟨b'', List.mem_cons_of_mem _ hb'', hpk⟩

theorem placeExisting_entry_origin {pk : Pri} {k : K} {bs : List (Bucket K)}
    (hnd : (bucketKeys bs).Nodup) :
    ∀ b' ∈ placeExisting pk k bs, ∀ k' ∈ b'.entries,
      (k' = k ∧ b'.priorityKey = pk) ∨
      (k' ≠ k ∧ ∃ b ∈ bs, k' ∈ b.entries ∧ b'.priorityKey = b.priorityKey) := by
  induction bs with
  | nil => simp [placeExisting]
  | cons b rest ih =>
    intro b' hb' k' hk'
    rw [bucketKeys_cons] at hnd
    have hbd : b.entries.Nodup := hnd.of_append_left
    have hrd : (bucketKeys rest).Nodup := hnd.of_append_right
    have hdisj : b.entries.Disjoint (bucketKeys rest) := List.disjoint_of_nodup_append hnd
    by_cases hb : k ∈ b.entries
    · simp only [placeExisting, if_pos hb] at hb'
      have hfrom : b' ∈ placeFrom pk k rest →
          (k' = k ∧ b'.priorityKey = pk) ∨
          (k' ≠ k ∧ ∃ bb ∈ b :: rest, k' ∈ bb.entries ∧ b'.priorityKey = bb.priorityKey) := by
        intro hmem
        rcases placeFrom_entry_origin b' hmem k' hk' with h | ⟨b'', hb'', hk'', hpk⟩
        · exact Or.inl h
        · have hne : k' ≠ k := by
            rintro rfl
            exact hdisj hb (List.mem_flatten.mpr ⟨b''.entries, List.mem_map.mpr ⟨b'', hb'', rfl⟩, hk''⟩)
          exact Or.inr ⟨hne, b'', List.mem_cons_of_mem _ hb'', hk'', hpk⟩
      by_cases he : (b.entries.erase k).isEmpty
      · rw [if_pos he] at hb'
        exact hfrom hb'
      · rw [if_neg he] at hb'
        rcases List.mem_cons.mp hb' with rfl | hb'
        · have hk'e : k' ∈ b.entries.erase k := hk'
          have := (List.Nodup.mem_erase_iff hbd).mp hk'e
          exact Or.inr ⟨this.1, b, List.mem_cons_self _ _, this.2, rfl⟩
        · exact hfrom hb'
    · simp only [placeExisting, if_neg hb] at hb'
      rcases List.mem_cons.mp hb' with rfl | hb'
      · have hne : k' ≠ k := by
          rintro rfl
          exact hb hk'
        exact Or.inr ⟨hne, b', List.mem_cons_self _ _, hk', rfl⟩
      · rcases ih hrd b' hb' k' hk' with h | ⟨hne, b'', hb'', hk'', hpk⟩
        · exact Or.inl h
        · exact Or.inr ⟨hne, b'', List.mem_cons_of_mem _ hb'', hk'', hpk⟩

theorem placeExisting_nonempty {pk : Pri} {k : K} {bs : List (Bucket K)}
    (h : ∀ b ∈ bs, b.entries ≠ []) :
    ∀ b' ∈ placeExisting pk k bs, b'.entries ≠ [] := by
  induction bs with
  | nil => simp [placeExisting]
  | cons b rest ih =>
    intro b' hb'
    have hrest : ∀ b'' ∈ rest, b''.entries ≠ [] :=
      fun b'' hb'' => h b'' (List.mem_cons_of_mem _ hb'')
    by_cases hb : k ∈ b.entries
    · simp only [placeExisting, if_pos hb] at hb'
      by_cases he : (b.entries.erase k).isEmpty
      · rw [if_pos he] at hb'
        exact placeFrom_nonempty hrest b' hb'
      · rw [if_neg he] at hb'
        rcases List.mem_cons.mp hb' with rfl | hb'
        · intro hc
          rw [List.isEmpty_iff] at he
          exact he hc
        · exact placeFrom_nonempty hrest b' hb'
    · simp only [placeExisting, if_neg hb] at hb'
      rcases List.mem_cons.mp hb' with rfl | hb'
      · exact h b' (List.mem_cons_self _ _)
      · exact ih hrest b' hb'

theorem placeExisting_pairwise_le {pk : Pri} {k : K} {bs : List (Bucket K)}
    (hs : bs.Pairwise bucketLE) (hk : k ∈ bucketKeys bs)
    (hle : ∀ b ∈ bs, k ∈ b.entries → b.priorityKey ≤ pk) :
    (placeExisting pk k bs).Pairwise bucketLE := by
  induction bs with
  | nil => simp [placeExisting]
  | cons b rest ih =>
    rw [List.pairwise_cons] at hs
    by_cases hb : k ∈ b.entries
    · have hbpk : b.priorityKey ≤ pk := hle b (List.mem_cons_self _ _) hb
      simp only [placeExisting, if_pos hb]
      by_cases he : (b.entries.erase k).isEmpty
      · rw [if_pos he]
        exact placeFrom_pairwise_le hs.2
      · rw [if_neg he]
        rw [List.pairwise_cons]
        refine ⟨?_, placeFrom_pairwise_le hs.2⟩
        intro b' hb'
        rcases placeFrom_pk_origin b' hb' with hpk | ⟨b'', hb'', hpk⟩
        · show b.priorityKey ≤ b'.priorityKey
          rw [hpk]
          exact hbpk
        · show b.priorityKey ≤ b'.priorityKey
          rw [hpk]
          exact hs.1 b'' hb''
    · have hr : k ∈ bucketKeys rest := by
        rw [bucketKeys_cons] at hk
        rcases List.mem_append.mp hk with h' | h'
        · exact absurd h' hb
        · exact h'
      have hble : b.priorityKey ≤ pk := by
        rcases List.mem_flatten.mp hr with ⟨es, hes, hkes⟩
        rcases List.mem_map.mp hes with ⟨bc, hbc, rfl⟩
        exact le_trans (hs.1 bc hbc) (hle bc (List.mem_cons_of_mem _ hbc) hkes)
      simp only [placeExisting, if_neg hb]
      rw [List.pairwise_cons]
      refine ⟨?_, ih hs.2 hr fun b'' hb'' hkb => hle b'' (List.mem_cons_of_mem _ hb'') hkb⟩
      intro b' hb'
      rcases placeExisting_pk_origin b' hb' with hpk | ⟨b'', hb'', hpk⟩
      · show b.priorityKey ≤ b'.priorityKey
        rw [hpk]
        exact hble
      · show b.priorityKey ≤ b'.priorityKey
        rw [hpk]
        exact hs.1 b'' hb''

theorem placeExisting_pairwise_lt {pk : Pri} {k : K} {bs : List (Bucket K)}
    (hs : bs.Pairwise bucketLT) (hk : k ∈ bucketKeys bs)
    (hlt : ∀ b ∈ bs, k ∈ b.entries → b.priorityKey < pk) :
    (placeExisting pk k bs).Pairwise bucketLT := by
  induction bs with
  | nil => simp [placeExisting]
  | cons b rest ih =>
    rw [List.pairwise_cons] at hs
    by_cases hb : k ∈ b.entries
    · have hbpk : b.priorityKey < pk := hlt b (List.mem_cons_self _ _) hb
      simp only [placeExisting, if_pos hb]
      by_cases he : (b.entries.erase k).isEmpty
      · rw [if_pos he]
        exact placeFrom_pairwise_lt hs.2
      · rw [if_neg he]
        rw [List.pairwise_cons]
        refine ⟨?_, placeFrom_pairwise_lt hs.2⟩
        intro b' hb'
        rcases placeFrom_pk_origin b' hb' with hpk | ⟨b'', hb'', hpk⟩
        · show b.priorityKey < b'.priorityKey
          rw [hpk]
          exact hbpk
        · show b.priorityKey < b'.priorityKey
          rw [hpk]
          exact hs.1 b'' hb''
    · have hr : k ∈ bucketKeys rest := by
        rw [bucketKeys_cons] at hk
        rcases List.mem_append.mp hk with h' | h'
        · exact absurd h' hb
        · exact h'
      have hble : b.priorityKey < pk := by
        rcases List.mem_flatten.mp hr with ⟨es, hes, hkes⟩
        rcases List.mem_map.mp hes with ⟨bc, hbc, rfl⟩
        exact lt_trans (hs.1 bc hbc) (hlt bc (List.mem_cons_of_mem _ hbc) hkes)
      simp only [placeExisting, if_neg hb]
      rw [List.pairwise_cons]
      refine ⟨?_, ih hs.2 hr fun b'' hb'' hkb => hlt b'' (List.mem_cons_of_mem _ hb'') hkb⟩
      intro b' hb'
      rcases placeExisting_pk_origin b' hb' with hpk | ⟨b'', hb'', hpk⟩
      · show b.priorityKey < b'.priorityKey
        rw [hpk]
        exact hble
      · show b.priorityKey < b'.priorityKey
        rw [hpk]
        exact hs.1 b'' hb''

theorem any_entries_iff {k : K} {bs : List (Bucket K)} :
    (bs.any fun b => decide (k ∈ b.entries)) = true ↔ k ∈ bucketKeys bs := by
  rw [List.any_eq_true]
  constructor
  · rintro ⟨b, hb, hk⟩
    rw [decide_eq_true_eq] at hk
    exact List.mem_flatten.mpr ⟨b.entries, List.mem_map.mpr ⟨b, hb, rfl⟩, hk⟩
  · intro h
    rcases List.mem_flatten.mp h with ⟨es, hes, hkes⟩
    rcases List.mem_map.mp hes with ⟨b, hb, rfl⟩
    exact ⟨b, hb, decide_eq_true_eq.mpr hkes⟩

theorem mem_bucketKeys_of_entry {k : K} {b : Bucket K} {bs : List (Bucket K)}
    (hb : b ∈ bs) (hk : k ∈ b.entries) : k ∈ bucketKeys bs :=
  List.mem_flatten.mpr ⟨b.entries, List.mem_map.mpr ⟨b, hb, rfl⟩, hk⟩

/-! ### Policy-function lemmas -/

theorem applyPolicy_mono_hits (pol : Policy) {h1 h2 : ℚ} (hh : h1 ≤ h2)
    {size : ℚ} (hsz : 0 ≤ size) (age : Pri) :
    applyPolicy pol h1 size age ≤ applyPolicy pol h2 size age := by
  cases pol with
  | lfuda =>
    simp only [applyPolicy, lfudaPolicy]
    exact add_le_add_right (WithTop.coe_le_coe.mpr hh) age
  | gdsf =>
    by_cases h0 : size = 0
    · simp only [applyPolicy, gdsfPolicy, if_pos h0, le_refl]
    · simp only [applyPolicy, gdsfPolicy, if_neg h0]
      have hpos : 0 < size := lt_of_le_of_ne hsz (Ne.symm h0)
      exact add_le_add_right
        (WithTop.coe_le_coe.mpr ((div_le_div_iff_of_pos_right hpos).mpr hh)) age

theorem applyPolicy_mono_age (pol : Policy) (hits size : ℚ) {a1 a2 : Pri}
    (ha : a1 ≤ a2) :
    applyPolicy pol hits size a1 ≤ applyPolicy pol hits size a2 := by
  cases pol with
  | lfuda =>
    simp only [applyPolicy, lfudaPolicy]
    exact add_le_add_left ha _
  | gdsf =>
    by_cases h0 : size = 0
    · simp only [applyPolicy, gdsfPolicy, if_pos h0, le_refl]
    · simp only [applyPolicy, gdsfPolicy, if_neg h0]
      exact add_le_add_left ha _

theorem age_le_applyPolicy (pol : Policy) {hits size : ℚ} (hh : 0 ≤ hits)
    (hsz : 0 ≤ size) (age : Pri) : age ≤ applyPolicy pol hits size age := by
  cases pol with
  | lfuda =>
    simp only [applyPolicy, lfudaPolicy]
    exact le_add_of_nonneg_left (by exact_mod_cast hh)
  | gdsf =>
    simp only [applyPolicy, gdsfPolicy]
    by_cases h0 : size = 0
    · rw [if_pos h0]
      exact le_top
    · rw [if_neg h0]
      exact le_add_of_nonneg_left (by exact_mod_cast div_nonneg hh hsz)

theorem applyPolicy_nonneg (pol : Policy) {hits size : ℚ} {age : Pri}
    (hh : 0 ≤ hits) (hsz : 0 ≤ size) (ha : 0 ≤ age) :
    0 ≤ applyPolicy pol hits size age :=
  le_trans ha (age_le_applyPolicy pol hh hsz age)

theorem applyPolicy_lt_hits (pol : Policy) {h1 h2 size : ℚ} (hh : h1 < h2)
    (hpos : pol = .gdsf → 0 < size) {age : Pri} (ha : age ≠ ⊤) :
    applyPolicy pol h1 size age < applyPolicy pol h2 size age := by
  rcases WithTop.ne_top_iff_exists.mp ha with ⟨a, rfl⟩
  cases pol with
  | lfuda =>
    simp only [applyPolicy, lfudaPolicy, ← WithTop.coe_add]
    exact WithTop.coe_lt_coe.mpr (by linarith)
  | gdsf =>
    have hs : 0 < size := hpos rfl
    simp only [applyPolicy, gdsfPolicy, if_neg (ne_of_gt hs), ← WithTop.coe_add]
    exact WithTop.coe_lt_coe.mpr
      (add_lt_add_right ((div_lt_div_iff_of_pos_right hs).mpr hh) a)

theorem applyPolicy_ne_top (pol : Policy) {hits size : ℚ}
    (hpos : pol = .gdsf → 0 < size) {age : Pri} (ha : age ≠ ⊤) :
    applyPolicy pol hits size age ≠ ⊤ := by
  rcases WithTop.ne_top_iff_exists.mp ha with ⟨a, rfl⟩
  cases pol with
  | lfuda =>
    simp only [applyPolicy, lfudaPolicy, ← WithTop.coe_add]
    exact WithTop.coe_ne_top
  | gdsf =>
    have hs : 0 < size := hpos rfl
    simp only [applyPolicy, gdsfPolicy, if_neg (ne_of_gt hs), ← WithTop.coe_add]
    exact WithTop.coe_ne_top

/-! ### `increment` lemmas -/

theorem increment_age (l : LFUDA K V) (k : K) : (increment l k).age = l.age := by
  unfold increment
  cases lookupItem k l.items <;> rfl

theorem increment_currSize (l : LFUDA K V) (k : K) :
    (increment l k).currSize = l.currSize := by
  unfold increment
  cases lookupItem k l.items <;> rfl

theorem increment_size (l : LFUDA K V) (k : K) :
    (increment l k).size = l.size := by
  unfold increment
  cases lookupItem k l.items <;> rfl

theorem increment_policy (l : LFUDA K V) (k : K) :
    (increment l k).policy = l.policy := by
  unfold increment
  cases lookupItem k l.items <;> rfl

theorem increment_map_fst (l : LFUDA K V) (k : K) :
    (increment l k).items.map Prod.fst = l.items.map Prod.fst := by
  cases hl : lookupItem k l.items with
  | none => simp [increment, hl]
  | some it =>
    simp only [increment, hl]
    exact map_fst_updateItem _ _ _

theorem lookupItem_increment_self {l : LFUDA K V} {k : K} {it : Item V}
    (hl : lookupItem k l.items = some it) :
    lookupItem k (increment l k).items =
      some { it with
              hits := it.hits + 1
              priorityKey := applyPolicy l.policy (it.hits + 1) it.size l.age } := by
  simp only [increment, hl]
  rw [lookupItem_updateItem_self, hl]
  rfl

theorem lookupItem_increment_ne {l : LFUDA K V} {k' k : K} (h : k' ≠ k) :
    lookupItem k (increment l k').items = lookupItem k l.items := by
  unfold increment
  cases hl : lookupItem k' l.items with
  | none => rfl
  | some it => simpa using lookupItem_updateItem_ne h _ _

/-- The central preservation lemma: `increment` called on an indexed item
restores the full invariant.  The two bucket-facing hypotheses about keys
other than `k` are exactly what holds in the fresh-insert path of `Set`,
where the new item is indexed but not yet bucketed and may still have a
priority key below the age. -/
theorem increment_Inv {l : LFUDA K V} {k : K} {it : Item V}
    (hl : lookupItem k l.items = some it) (hc : InvCore l)
    (htb : ∀ k' it', k' ≠ k → lookupItem k' l.items = some it' →
      k' ∈ bucketKeys l.freqs)
    (hal : ∀ p ∈ l.items, p.1 ≠ k → l.age ≤ p.2.priorityKey) :
    Inv (increment l k) := by
  have hmem : (k, it) ∈ l.items := lookupItem_mem hl
  have hits0 : 0 ≤ it.hits := hc.hitsNonneg _ hmem
  have hsz0 : 0 ≤ it.size := hc.sizeNonneg _ hmem
  set pk := applyPolicy l.policy (it.hits + 1) it.size l.age with hpkdef
  have hagepk : l.age ≤ pk := age_le_applyPolicy _ (by linarith) hsz0 _
  have hple : it.priorityKey ≤ pk :=
    le_trans (hc.priLe _ hmem)
      (applyPolicy_mono_hits _ (by linarith) hsz0 _)
  have hble : ∀ b ∈ l.freqs, k ∈ b.entries → b.priorityKey ≤ pk := by
    intro b hb hkb
    rcases hc.toItems b hb k hkb with ⟨it2, hit2, hpk2⟩
    rw [hl] at hit2
    have heq : it = it2 := Option.some.inj hit2
    rw [← hpk2, ← heq]
    exact hple
  have hfr : (increment l k).freqs = incrFreqs pk k l.freqs := by
    unfold increment
    rw [hl]
  have hitems : (increment l k).items =
      updateItem k (fun i => { i with hits := it.hits + 1, priorityKey := pk })
        l.items := by
    unfold increment
    rw [hl]
  have hage : (increment l k).age = l.age := increment_age l k
  have hpol : (increment l k).policy = l.policy := increment_policy l k
  have hcur : (increment l k).currSize = l.currSize := increment_currSize l k
  have hlook_self : lookupItem k (increment l k).items =
      some { it with hits := it.hits + 1, priorityKey := pk } := by
    rw [hitems, lookupItem_updateItem_self, hl]
    rfl
  have hitem_cases : ∀ p ∈ (increment l k).items,
      (p.1 ≠ k ∧ p ∈ l.items) ∨
      (p.1 = k ∧ p.2 = { it with hits := it.hits + 1, priorityKey := pk }) := by
    intro p hp
    rw [hitems] at hp
    rcases mem_updateItem hp with ⟨hne, hpl⟩ | ⟨hpk1, it2, hit2, hp2⟩
    · exact Or.inl ⟨hne, hpl⟩
    · refine Or.inr ⟨hpk1, ?_⟩
      have h2 := mem_lookupItem_of_nodup hc.itemsNodup hit2
      rw [hl] at h2
      have heq : it2 = it := (Option.some.inj h2).symm
      rw [hp2, heq]
  by_cases hk : k ∈ bucketKeys l.freqs
  · -- the item already sits in a bucket: `incrFreqs` takes `placeExisting`
    have hdisp : (increment l k).freqs = placeExisting pk k l.freqs := by
      rw [hfr]
      unfold incrFreqs
      rw [if_pos (any_entries_iff.mpr hk)]
    have hperm : (bucketKeys (increment l k).freqs).Perm (bucketKeys l.freqs) := by
      rw [hdisp]
      exact placeExisting_perm hk
    refine ⟨⟨?_, ?_, ?_, ?_, ?_, ?_, ?_, ?_, ?_, ?_⟩, ?_, ?_⟩
    · rw [hdisp]
      exact placeExisting_pairwise_le hc.sorted hk hble
    · rw [hdisp]
      exact placeExisting_nonempty hc.nonempty
    · -- toItems
      intro b' hb' k' hk'
      rw [hdisp] at hb'
      rcases placeExisting_entry_origin hc.bucketNodup b' hb' k' hk' with
        ⟨rfl, hpk'⟩ | ⟨hne, b, hb, hkb, hpk'⟩
      · exact ⟨_, hlook_self, hpk'.symm⟩
      · rcases hc.toItems b hb k' hkb with ⟨it2, hit2, hpk2⟩
        refine ⟨it2, ?_, by rw [hpk2, hpk']⟩
        rw [hitems, lookupItem_updateItem_ne (Ne.symm hne)]
        exact hit2
    · exact hperm.nodup_iff.mpr hc.bucketNodup
    · rw [hitems, map_fst_updateItem]
      exact hc.itemsNodup
    · -- priLe
      intro p hp
      rw [hpol, hage]
      rcases hitem_cases p hp with ⟨hne, hpl⟩ | ⟨hpk1, hp2⟩
      · exact hc.priLe _ hpl
      · rw [hp2]
    · intro p hp
      rcases hitem_cases p hp with ⟨hne, hpl⟩ | ⟨hpk1, hp2⟩
      · exact hc.hitsNonneg _ hpl
      · rw [hp2]
        show (0 : ℚ) ≤ it.hits + 1
        linarith
    · intro p hp
      rcases hitem_cases p hp with ⟨hne, hpl⟩ | ⟨hpk1, hp2⟩
      · exact hc.sizeNonneg _ hpl
      · rw [hp2]
        exact hsz0
    · rw [hcur, hitems, map_size_updateItem k
        (fun i => { i with hits := it.hits + 1, priorityKey := pk }) (fun _ => rfl)]
      exact hc.currSizeEq
    · rw [hage]
      exact hc.ageNonneg
    · -- toBuckets
      intro k' it' hk'
      by_cases hne : k' = k
      · subst hne
        exact hperm.mem_iff.mpr hk
      · rw [hitems, lookupItem_updateItem_ne (Ne.symm hne)] at hk'
        exact hperm.mem_iff.mpr (htb k' it' hne hk')
    · -- ageLe
      intro p hp
      rw [hage]
      rcases hitem_cases p hp with ⟨hne, hpl⟩ | ⟨hpk1, hp2⟩
      · exact hal _ hpl hne
      · rw [hp2]
        exact hagepk
  · -- fresh placement: `incrFreqs` takes `placeFrom`
    have hdisp : (increment l k).freqs = placeFrom pk k l.freqs := by
      rw [hfr]
      unfold incrFreqs
      rw [if_neg]
      intro hcontra
      exact hk (any_entries_iff.mp hcontra)
    have hperm : (bucketKeys (increment l k).freqs).Perm (k :: bucketKeys l.freqs) := by
      rw [hdisp]
      exact placeFrom_perm pk k l.freqs
    refine ⟨⟨?_, ?_, ?_, ?_, ?_, ?_, ?_, ?_, ?_, ?_⟩, ?_, ?_⟩
    · rw [hdisp]
      exact placeFrom_pairwise_le hc.sorted
    · rw [hdisp]
      exact placeFrom_nonempty hc.nonempty
    · intro b' hb' k' hk'
      rw [hdisp] at hb'
      rcases placeFrom_entry_origin b' hb' k' hk' with
        ⟨rfl, hpk'⟩ | ⟨b, hb, hkb, hpk'⟩
      · exact ⟨_, hlook_self, hpk'.symm⟩
      · have hne : k' ≠ k := by
          rintro rfl
          exact hk (mem_bucketKeys_of_entry hb hkb)
        rcases hc.toItems b hb k' hkb with ⟨it2, hit2, hpk2⟩
        refine ⟨it2, ?_, by rw [hpk2, hpk']⟩
        rw [hitems, lookupItem_updateItem_ne (Ne.symm hne)]
        exact hit2
    · refine hperm.nodup_iff.mpr ?_
      exact List.nodup_cons.mpr ⟨hk, hc.bucketNodup⟩
    · rw [hitems, map_fst_updateItem]
      exact hc.itemsNodup
    · intro p hp
      rw [hpol, hage]
      rcases hitem_cases p hp with ⟨hne, hpl⟩ | ⟨hpk1, hp2⟩
      · exact hc.priLe _ hpl
      · rw [hp2]
    · intro p hp
      rcases hitem_cases p hp with ⟨hne, hpl⟩ | ⟨hpk1, hp2⟩
      · exact hc.hitsNonneg _ hpl
      · rw [hp2]
        show (0 : ℚ) ≤ it.hits + 1
        linarith
    · intro p hp
      rcases hitem_cases p hp with ⟨hne, hpl⟩ | ⟨hpk1, hp2⟩
      · exact hc.sizeNonneg _ hpl
      · rw [hp2]
        exact hsz0
    · rw [hcur, hitems, map_size_updateItem k
        (fun i => { i with hits := it.hits + 1, priorityKey := pk }) (fun _ => rfl)]
      exact hc.currSizeEq
    · rw [hage]
      exact hc.ageNonneg
    · intro k' it' hk'
      by_cases hne : k' = k
      · subst hne
        exact hperm.mem_iff.mpr (List.mem_cons_self _ _)
      · rw [hitems, lookupItem_updateItem_ne (Ne.symm hne)] at hk'
        exact hperm.mem_iff.mpr (List.mem_cons_of_mem _ (htb k' it' hne hk'))
    · intro p hp
      rw [hage]
      rcases hitem_cases p hp with ⟨hne, hpl⟩ | ⟨hpk1, hp2⟩
      · exact hal _ hpl hne
      · rw [hp2]
        exact hagepk

/-! ### `remove` lemmas -/

theorem remove_none {l : LFUDA K V} {k : K}
    (hl : lookupItem k l.items = none) : remove l k = (l, false) := by
  simp [remove, hl]

theorem remove_some {l : LFUDA K V} {k : K} {it : Item V}
    (hl : lookupItem k l.items = some it) :
    remove l k =
      ({ l with
          items := eraseItem k l.items
          freqs := remEntry k l.freqs
          currSize := l.currSize - it.size }, true) := by
  simp [remove, hl]

theorem lookupItem_remove_self (l : LFUDA K V) (k : K) :
    lookupItem k (remove l k).1.items = none := by
  cases hl : lookupItem k l.items with
  | none =>
    rw [remove_none hl]
    exact hl
  | some it =>
    rw [remove_some hl]
    exact lookupItem_eraseItem_self k l.items

theorem lookupItem_remove_ne {l : LFUDA K V} {k' k : K} (h : k' ≠ k) :
    lookupItem k (remove l k').1.items = lookupItem k l.items := by
  cases hl : lookupItem k' l.items with
  | none => rw [remove_none hl]
  | some it =>
    rw [remove_some hl]
    exact lookupItem_eraseItem_ne h l.items

theorem remove_age (l : LFUDA K V) (k : K) : (remove l k).1.age = l.age := by
  cases hl : lookupItem k l.items with
  | none => rw [remove_none hl]
  | some it => rw [remove_some hl]

theorem remove_size (l : LFUDA K V) (k : K) : (remove l k).1.size = l.size := by
  cases hl : lookupItem k l.items with
  | none => rw [remove_none hl]
  | some it => rw [remove_some hl]

theorem remove_policy (l : LFUDA K V) (k : K) :
    (remove l k).1.policy = l.policy := by
  cases hl : lookupItem k l.items with
  | none => rw [remove_none hl]
  | some it => rw [remove_some hl]

theorem remove_length {l : LFUDA K V} {k : K} {it : Item V}
    (hl : lookupItem k l.items = some it)
    (hnd : (l.items.map Prod.fst).Nodup) :
    (remove l k).1.items.length + 1 = l.items.length := by
  rw [remove_some hl]
  dsimp only
  have := (perm_cons_eraseItem hnd hl).length_eq
  simp at this
  omega

theorem remove_Inv {l : LFUDA K V} (k : K) (hi : Inv l) : Inv (remove l k).1 := by
  cases hl : lookupItem k l.items with
  | none =>
    rw [remove_none hl]
    exact hi
  | some it =>
    rw [remove_some hl]
    dsimp only
    have hperm := perm_cons_eraseItem hi.itemsNodup hl
    have hesub : (eraseItem k l.items).Sublist l.items := eraseItem_sublist k l.items
    refine ⟨⟨?_, ?_, ?_, ?_, ?_, ?_, ?_, ?_, ?_, ?_⟩, ?_, ?_⟩
    · exact remEntry_pairwise hi.sorted
    · exact remEntry_nonempty hi.nonempty
    · intro b' hb' k' hk'
      have hnotk : k' ≠ k := by
        rintro rfl
        exact not_mem_bucketKeys_remEntry hi.bucketNodup
          (mem_bucketKeys_of_entry hb' hk')
      rcases remEntry_entry_origin b' hb' k' hk' with ⟨b, hb, hkb, hpk⟩
      rcases hi.toItems b hb k' hkb with ⟨it2, hit2, hpk2⟩
      refine ⟨it2, ?_, by rw [hpk2, hpk]⟩
      dsimp only
      rw [lookupItem_eraseItem_ne (Ne.symm hnotk)]
      exact hit2
    · exact bucketKeys_remEntry_nodup hi.bucketNodup
    · exact ((hesub.map Prod.fst).nodup hi.itemsNodup)
    · intro p hp
      exact hi.priLe _ (hesub.mem hp)
    · intro p hp
      exact hi.hitsNonneg _ (hesub.mem hp)
    · intro p hp
      exact hi.sizeNonneg _ (hesub.mem hp)
    · have hs := (hperm.map fun p => p.2.size).sum_eq
      simp only [List.map_cons, List.sum_cons] at hs
      have := hi.currSizeEq
      show l.currSize - it.size = _
      rw [this, hs]
      ring
    · exact hi.ageNonneg
    · intro k' it' hk'
      dsimp only at hk' ⊢
      have hnotk : k' ≠ k := by
        rintro rfl
        rw [lookupItem_eraseItem_self] at hk'
        exact Option.noConfusion hk'
      rw [lookupItem_eraseItem_ne (Ne.symm hnotk)] at hk'
      have hmem := hi.toBuckets k' it' hk'
      by_cases hkk : k ∈ bucketKeys l.freqs
      · have := (remEntry_perm hkk).mem_iff.mp hmem
        rcases List.mem_cons.mp this with h | h
        · exact absurd h hnotk
        · exact h
      · rw [remEntry_of_not_mem hkk]
        exact hmem
    · intro p hp
      exact hi.ageLe _ (hesub.mem hp)

/-! ### `evict` lemmas -/

theorem item_pk_eq_bucket_pk {l : LFUDA K V} (hi : Inv l) {b : Bucket K}
    (hb : b ∈ l.freqs) {k : K} (hkb : k ∈ b.entries) {it : Item V}
    (hl : lookupItem k l.items = some it) : it.priorityKey = b.priorityKey := by
  rcases hi.toItems b hb k hkb with ⟨it2, hit2, hpk2⟩
  rw [hl] at hit2
  rw [Option.some.inj hit2]
  exact hpk2

theorem front_pk_min {l : LFUDA K V} (hi : Inv l) {b : Bucket K}
    {rest : List (Bucket K)} (hfr : l.freqs = b :: rest) :
    ∀ k' it', lookupItem k' l.items = some it' →
      b.priorityKey ≤ it'.priorityKey := by
  intro k' it' hl'
  have hmem := hi.toBuckets k' it' hl'
  rcases List.mem_flatten.mp hmem with ⟨es, hes, hkes⟩
  rcases List.mem_map.mp hes with ⟨b'', hb'', rfl⟩
  have hpk : it'.priorityKey = b''.priorityKey :=
    item_pk_eq_bucket_pk hi hb'' hkes hl'
  rw [hpk]
  rw [hfr] at hb''
  rcases List.mem_cons.mp hb'' with rfl | hb''
  · exact le_refl _
  · have := hi.sorted
    rw [hfr, List.pairwise_cons] at this
    exact this.1 b'' hb''

theorem items_ne_iff_freqs_ne {l : LFUDA K V} (hi : Inv l) :
    l.items ≠ [] ↔ l.freqs ≠ [] := by
  constructor
  · intro h
    cases hitems : l.items with
    | nil => exact absurd hitems h
    | cons p rest =>
      have hl : ∃ itx, lookupItem p.1 l.items = some itx := by
        rw [lookupItem_isSome_iff, hitems]
        simp
      rcases hl with ⟨itx, hitx⟩
      have := hi.toBuckets _ _ hitx
      intro hfr
      rw [hfr] at this
      simp [bucketKeys] at this
  · intro h
    cases hfr : l.freqs with
    | nil => exact absurd hfr h
    | cons b rest =>
      have hb : b ∈ l.freqs := by
        rw [hfr]
        exact List.mem_cons_self _ _
      have hne := hi.nonempty b hb
      cases hent : b.entries with
      | nil => exact absurd hent hne
      | cons v vs =>
        have hv : v ∈ bucketKeys l.freqs :=
          mem_bucketKeys_of_entry hb (by rw [hent]; exact List.mem_cons_self _ _)
        have := (hi.toItems b hb v (by rw [hent]; exact List.mem_cons_self _ _))
        rcases this with ⟨it, hit, -⟩
        intro hitems
        rw [hitems] at hit
        simp [lookupItem] at hit

/-- Structural case analysis of `evict`: either nothing happens (empty
frequency list, empty front bucket, or a dangling member — the latter two
are impossible under the invariant), or the head member of the front
bucket is removed after the age is assigned its priority key. -/
theorem evict_cases (l : LFUDA K V) :
    evict l = (l, false) ∨
    ∃ b rest v vs it, l.freqs = b :: rest ∧ b.entries = v :: vs ∧
      lookupItem v l.items = some it ∧
      evict l = ((remove { l with age := it.priorityKey } v).1, true) := by
  cases hfr : l.freqs with
  | nil =>
    left
    simp [evict, hfr]
  | cons b rest =>
    cases hent : b.entries with
    | nil =>
      left
      simp [evict, hfr, hent]
    | cons v vs =>
      cases hl : lookupItem v l.items with
      | none =>
        left
        simp [evict, hfr, hent, hl]
      | some it =>
        right
        exact ⟨b, rest, v, vs, it, rfl, hent, hl, by simp [evict, hfr, hent, hl]⟩

theorem evict_Inv {l : LFUDA K V} (hi : Inv l) : Inv (evict l).1 := by
  rcases evict_cases l with h | ⟨b, rest, v, vs, it, hfr, hent, hl, h⟩
  · rw [h]
    exact hi
  · rw [h]
    have hvb : v ∈ b.entries := by
      rw [hent]
      exact List.mem_cons_self _ _
    have hbmem : b ∈ l.freqs := by
      rw [hfr]
      exact List.mem_cons_self _ _
    have hpkb : it.priorityKey = b.priorityKey := item_pk_eq_bucket_pk hi hbmem hvb hl
    have hagele : l.age ≤ it.priorityKey := hi.ageLe _ (lookupItem_mem hl)
    have hi2 : Inv { l with age := it.priorityKey } := by
      refine ⟨⟨hi.sorted, hi.nonempty, hi.toItems, hi.bucketNodup, hi.itemsNodup,
        ?_, hi.hitsNonneg, hi.sizeNonneg, hi.currSizeEq, ?_⟩, hi.toBuckets, ?_⟩
      · intro p hp
        exact le_trans (hi.priLe p hp) (applyPolicy_mono_age _ _ _ hagele)
      · exact le_trans hi.ageNonneg hagele
      · intro p hp
        show it.priorityKey ≤ p.2.priorityKey
        rw [hpkb]
        have hlp : lookupItem p.1 l.items = some p.2 :=
          mem_lookupItem_of_nodup hi.itemsNodup hp
        exact front_pk_min hi hfr p.1 p.2 hlp
    exact remove_Inv v hi2

theorem evict_age_ge {l : LFUDA K V} (hi : Inv l) : l.age ≤ (evict l).1.age := by
  rcases evict_cases l with h | ⟨b, rest, v, vs, it, hfr, hent, hl, h⟩
  · rw [h]
  · rw [h, remove_age]
    exact hi.ageLe _ (lookupItem_mem hl)

theorem evict_subset {l : LFUDA K V} {k : K} {it' : Item V}
    (h : lookupItem k (evict l).1.items = some it') :
    lookupItem k l.items = some it' := by
  rcases evict_cases l with he | ⟨b, rest, v, vs, it, hfr, hent, hl, he⟩
  · rw [he] at h
    exact h
  · rw [he] at h
    by_cases hkv : k = v
    · subst hkv
      rw [lookupItem_remove_self] at h
      exact Option.noConfusion h
    · rw [lookupItem_remove_ne (Ne.symm hkv)] at h
      exact h

theorem evict_size (l : LFUDA K V) : (evict l).1.size = l.size := by
  rcases evict_cases l with h | ⟨b, rest, v, vs, it, hfr, hent, hl, h⟩
  · rw [h]
  · rw [h, remove_size]

theorem evict_policy (l : LFUDA K V) : (evict l).1.policy = l.policy := by
  rcases evict_cases l with h | ⟨b, rest, v, vs, it, hfr, hent, hl, h⟩
  · rw [h]
  · rw [h, remove_policy]

/-- Under the invariant, `evict` on a state with a non-empty frequency
list really evicts: the victim is the head member of the front bucket, the
age becomes its priority key, and that key is minimal among all priority
keys present. -/
theorem evict_progress {l : LFUDA K V} (hi : Inv l) (hfr : l.freqs ≠ []) :
    ∃ v it, lookupItem v l.items = some it ∧ (evict l).2 = true ∧
      (evict l).1.age = it.priorityKey ∧
      lookupItem v (evict l).1.items = none ∧
      ∀ k' it', lookupItem k' l.items = some it' →
        it.priorityKey ≤ it'.priorityKey := by
  cases hfr' : l.freqs with
  | nil => exact absurd hfr' hfr
  | cons b rest =>
    have hb : b ∈ l.freqs := by
      rw [hfr']
      exact List.mem_cons_self _ _
    cases hent : b.entries with
    | nil => exact absurd hent (hi.nonempty b hb)
    | cons v vs =>
      have hvb : v ∈ b.entries := by
        rw [hent]
        exact List.mem_cons_self _ _
      rcases hi.toItems b hb v hvb with ⟨it, hit, hpkb⟩
      have hev : evict l = ((remove { l with age := it.priorityKey } v).1, true) := by
        simp [evict, hfr', hent, hit]
      refine ⟨v, it, hit, by rw [hev], ?_, ?_, ?_⟩
      · rw [hev, remove_age]
      · rw [hev]
        exact lookupItem_remove_self _ _
      · intro k' it' hl'
        rw [hpkb]
        exact front_pk_min hi hfr' k' it' hl'

/-! ### `evictLoop` lemmas -/

theorem evictLoop_succ_pos {l : LFUDA K V} {nb : ℚ} {f : ℕ} {ev : Bool}
    (h : l.currSize + nb > l.size) :
    evictLoop nb (f + 1) l ev = evictLoop nb f (evict l).1 true := by
  simp [evictLoop, h]

theorem evictLoop_succ_neg {l : LFUDA K V} {nb : ℚ} {f : ℕ} {ev : Bool}
    (h : ¬l.currSize + nb > l.size) :
    evictLoop nb (f + 1) l ev = (l, ev) := by
  simp [evictLoop, h]

theorem evictLoop_Inv {nb : ℚ} (f : ℕ) :
    ∀ {l : LFUDA K V} {ev : Bool}, Inv l → Inv (evictLoop nb f l ev).1 := by
  induction f with
  | zero =>
    intro l ev hi
    exact hi
  | succ f ih =>
    intro l ev hi
    by_cases h : l.currSize + nb > l.size
    · rw [evictLoop_succ_pos h]
      exact ih (evict_Inv hi)
    · rw [evictLoop_succ_neg h]
      exact hi

theorem evictLoop_age {nb : ℚ} (f : ℕ) :
    ∀ {l : LFUDA K V} {ev : Bool}, Inv l →
      l.age ≤ (evictLoop nb f l ev).1.age := by
  induction f with
  | zero =>
    intro l ev _
    exact le_refl _
  | succ f ih =>
    intro l ev hi
    by_cases h : l.currSize + nb > l.size
    · rw [evictLoop_succ_pos h]
      exact le_trans (evict_age_ge hi) (ih (evict_Inv hi))
    · rw [evictLoop_succ_neg h]

theorem evictLoop_subset {nb : ℚ} (f : ℕ) :
    ∀ {l : LFUDA K V} {ev : Bool} {k : K} {it' : Item V},
      lookupItem k (evictLoop nb f l ev).1.items = some it' →
      lookupItem k l.items = some it' := by
  induction f with
  | zero =>
    intro l ev k it' h
    exact h
  | succ f ih =>
    intro l ev k it' hlk
    by_cases h : l.currSize + nb > l.size
    · rw [evictLoop_succ_pos h] at hlk
      exact evict_subset (ih hlk)
    · rw [evictLoop_succ_neg h] at hlk
      exact hlk

theorem evictLoop_size {nb : ℚ} (f : ℕ) :
    ∀ {l : LFUDA K V} {ev : Bool}, (evictLoop nb f l ev).1.size = l.size := by
  induction f with
  | zero =>
    intro l ev
    rfl
  | succ f ih =>
    intro l ev
    by_cases h : l.currSize + nb > l.size
    · rw [evictLoop_succ_pos h, ih, evict_size]
    · rw [evictLoop_succ_neg h]

theorem evictLoop_policy {nb : ℚ} (f : ℕ) :
    ∀ {l : LFUDA K V} {ev : Bool},
      (evictLoop nb f l ev).1.policy = l.policy := by
  induction f with
  | zero =>
    intro l ev
    rfl
  | succ f ih =>
    intro l ev
    by_cases h : l.currSize + nb > l.size
    · rw [evictLoop_succ_pos h, ih, evict_policy]
    · rw [evictLoop_succ_neg h]

theorem evictLoop_flag_mono {nb : ℚ} (f : ℕ) :
    ∀ {l : LFUDA K V}, (evictLoop nb f l true).2 = true := by
  induction f with
  | zero =>
    intro l
    rfl
  | succ f ih =>
    intro l
    by_cases h : l.currSize + nb > l.size
    · rw [evictLoop_succ_pos h]
      exact ih
    · rw [evictLoop_succ_neg h]

theorem evictLoop_flag_of_guard {l : LFUDA K V} {nb : ℚ} {f : ℕ} {ev : Bool}
    (h : l.currSize + nb > l.size) :
    (evictLoop nb (f + 1) l ev).2 = true := by
  rw [evictLoop_succ_pos h]
  exact evictLoop_flag_mono f

theorem items_ne_of_currSize_pos {l : LFUDA K V} (hi : Inv l)
    (h : 0 < l.currSize) : l.items ≠ [] := by
  intro hempty
  rw [hi.currSizeEq, hempty] at h
  simp at h

theorem evictLoop_lost {l : LFUDA K V} {b : ℚ} {f : ℕ} {e : Bool}
    (hi : Inv l) (hnb : b ≤ l.size) (hguard : l.currSize + b > l.size) :
    ∃ k', (∃ it', lookupItem k' l.items = some it') ∧
      lookupItem k' (evictLoop b (f + 1) l e).1.items = none := by
  have hpos : 0 < l.currSize := by linarith
  have hne : l.items ≠ [] := items_ne_of_currSize_pos hi hpos
  have hfne : l.freqs ≠ [] := (items_ne_iff_freqs_ne hi).mp hne
  rcases evict_progress hi hfne with ⟨v, it, hit, -, -, hnone, -⟩
  refine ⟨v, ⟨it, hit⟩, ?_⟩
  rw [evictLoop_succ_pos hguard]
  cases hfin : lookupItem v (evictLoop b f (evict l).1 true).1.items with
  | none => rfl
  | some it2 =>
    rw [evictLoop_subset f hfin] at hnone
    exact Option.noConfusion hnone

/-! ### `set`, `get`, `purge` lemmas -/

theorem lookupItem_cons_self (k : K) (it : Item V) (rest : List (K × Item V)) :
    lookupItem k ((k, it) :: rest) = some it := by
  simp [lookupItem]

theorem lookupItem_cons_ne {k0 k : K} (h : k0 ≠ k) (it : Item V)
    (rest : List (K × Item V)) :
    lookupItem k ((k0, it) :: rest) = lookupItem k rest := by
  simp [lookupItem, h]

theorem set_overwrite {l : LFUDA K V} {k : K} {v : V} {it : Item V}
    (hl : lookupItem k l.items = some it) :
    set szOf l k v =
      (increment
        { l with items := updateItem k (fun i => { i with value := v }) l.items } k,
        false) := by
  simp [set, hl]

theorem set_reject {l : LFUDA K V} {k : K} {v : V}
    (hl : lookupItem k l.items = none) (hbig : l.size < (szOf v : ℚ)) :
    set szOf l k v = (l, false) := by
  simp [set, hl, hbig]

theorem set_fresh_insert {l : LFUDA K V} {k : K} {v : V}
    (hl : lookupItem k l.items = none) (hfit : ¬l.size < (szOf v : ℚ)) :
    set szOf l k v =
      (increment
        { (evictLoop ((szOf v : ℚ)) (l.items.length + 1) l false).1 with
          items := (k, { value := v, size := ((szOf v : ℚ)), hits := 0, priorityKey := 0 }) ::
            (evictLoop ((szOf v : ℚ)) (l.items.length + 1) l false).1.items
          currSize := (evictLoop ((szOf v : ℚ)) (l.items.length + 1) l false).1.currSize
            + ((szOf v : ℚ)) } k,
        (evictLoop ((szOf v : ℚ)) (l.items.length + 1) l false).2) := by
  simp [set, hl, hfit]

theorem value_update_Inv {l : LFUDA K V} {k : K} {v : V} (hi : Inv l) :
    Inv { l with items := updateItem k (fun i => { i with value := v }) l.items } := by
  have hcases : ∀ p ∈ updateItem k (fun i => { i with value := v }) l.items,
      ∃ q ∈ l.items, p.1 = q.1 ∧ p.2.size = q.2.size ∧ p.2.hits = q.2.hits ∧
        p.2.priorityKey = q.2.priorityKey := by
    intro p hp
    rcases mem_updateItem hp with ⟨hne, hpl⟩ | ⟨hpk1, it2, hit2, hp2⟩
    · exact ⟨p, hpl, rfl, rfl, rfl, rfl⟩
    · exact ⟨(k, it2), hit2, hpk1, by rw [hp2], by rw [hp2], by rw [hp2]⟩
  refine ⟨⟨hi.sorted, hi.nonempty, ?_, hi.bucketNodup, ?_, ?_, ?_, ?_, ?_,
    hi.ageNonneg⟩, ?_, ?_⟩
  · intro b hb k' hk'
    rcases hi.toItems b hb k' hk' with ⟨it2, hit2, hpk2⟩
    by_cases hkk : k' = k
    · subst hkk
      refine ⟨{ it2 with value := v }, ?_, hpk2⟩
      dsimp only
      rw [lookupItem_updateItem_self, hit2]
      rfl
    · refine ⟨it2, ?_, hpk2⟩
      dsimp only
      rw [lookupItem_updateItem_ne (Ne.symm hkk)]
      exact hit2
  · dsimp only
    rw [map_fst_updateItem]
    exact hi.itemsNodup
  · intro p hp
    rcases hcases p hp with ⟨q, hq, -, hsz, hh, hpk⟩
    show p.2.priorityKey ≤ applyPolicy l.policy p.2.hits p.2.size l.age
    rw [hsz, hh, hpk]
    exact hi.priLe q hq
  · intro p hp
    rcases hcases p hp with ⟨q, hq, -, -, hh, -⟩
    rw [hh]
    exact hi.hitsNonneg q hq
  · intro p hp
    rcases hcases p hp with ⟨q, hq, -, hsz, -, -⟩
    rw [hsz]
    exact hi.sizeNonneg q hq
  · dsimp only
    rw [map_size_updateItem k (fun i => { i with value := v }) (fun _ => rfl)]
    exact hi.currSizeEq
  · intro k' it' hk'
    dsimp only at hk' ⊢
    by_cases hkk : k' = k
    · subst hkk
      rw [lookupItem_updateItem_self] at hk'
      cases hl : lookupItem k' l.items with
      | none =>
        rw [hl] at hk'
        exact Option.noConfusion hk'
      | some it2 => exact hi.toBuckets k' it2 hl
    · rw [lookupItem_updateItem_ne (Ne.symm hkk)] at hk'
      exact hi.toBuckets k' it' hk'
  · intro p hp
    rcases hcases p hp with ⟨q, hq, -, -, -, hpk⟩
    rw [hpk]
    exact hi.ageLe q hq

theorem set_Inv {l : LFUDA K V} (k : K) (v : V) (hi : Inv l) :
    Inv (set szOf l k v).1 := by
  cases hl : lookupItem k l.items with
  | some it =>
    rw [set_overwrite szOf hl]
    have hi' := value_update_Inv (k := k) (v := v) hi
    have hl' : lookupItem k
        ({ l with items := updateItem k (fun i => { i with value := v }) l.items}).items =
        some { it with value := v } := by
      dsimp only
      rw [lookupItem_updateItem_self, hl]
      rfl
    exact increment_Inv hl' hi'.toInvCore
      (fun k' it' hne hlk => hi'.toBuckets k' it' hlk)
      (fun p hp _ => hi'.ageLe p hp)
  | none =>
    by_cases hbig : l.size < (szOf v : ℚ)
    · rw [set_reject szOf hl hbig]
      exact hi
    · rw [set_fresh_insert szOf hl hbig]
      set l1 := (evictLoop ((szOf v : ℚ)) (l.items.length + 1) l false).1 with hl1
      have hi1 : Inv l1 := evictLoop_Inv _ hi
      have hnone1 : lookupItem k l1.items = none := by
        cases hsome : lookupItem k l1.items with
        | none => rfl
        | some it2 =>
          rw [evictLoop_subset _ hsome] at hl
          exact Option.noConfusion hl
      set it0 : Item V :=
        { value := v, size := ((szOf v : ℚ)), hits := 0, priorityKey := 0 } with hit0
      set l2 : LFUDA K V :=
        { l1 with items := (k, it0) :: l1.items, currSize := l1.currSize + (szOf v : ℚ) }
        with hl2
      have hlk2 : lookupItem k l2.items = some it0 := lookupItem_cons_self k it0 l1.items
      have hknot : k ∉ l1.items.map Prod.fst := lookupItem_eq_none_iff.mp hnone1
      have hcore : InvCore l2 := by
        refine ⟨hi1.sorted, hi1.nonempty, ?_, hi1.bucketNodup, ?_, ?_, ?_, ?_, ?_,
          hi1.ageNonneg⟩
        · intro b hb k' hk'
          rcases hi1.toItems b hb k' hk' with ⟨it2, hit2, hpk2⟩
          have hne : k ≠ k' := by
            rintro rfl
            rw [hnone1] at hit2
            exact Option.noConfusion hit2
          refine ⟨it2, ?_, hpk2⟩
          show lookupItem k' ((k, it0) :: l1.items) = some it2
          rw [lookupItem_cons_ne hne]
          exact hit2
        · show (((k, it0) :: l1.items).map Prod.fst).Nodup
          rw [List.map_cons, List.nodup_cons]
          exact ⟨hknot, hi1.itemsNodup⟩
        · intro p hp
          rcases List.mem_cons.mp hp with rfl | hp
          · show (0 : Pri) ≤ applyPolicy l1.policy 0 ((szOf v : ℚ)) l1.age
            exact applyPolicy_nonneg _ (le_refl 0) (by positivity) hi1.ageNonneg
          · exact hi1.priLe p hp
        · intro p hp
          rcases List.mem_cons.mp hp with rfl | hp
          · exact le_refl _
          · exact hi1.hitsNonneg p hp
        · intro p hp
          rcases List.mem_cons.mp hp with rfl | hp
          · show (0 : ℚ) ≤ ((szOf v : ℚ))
            positivity
          · exact hi1.sizeNonneg p hp
        · show l1.currSize + (szOf v : ℚ) = (((k, it0) :: l1.items).map fun p => p.2.size).sum
          rw [List.map_cons, List.sum_cons, hi1.currSizeEq]
          show (List.map (fun p => p.2.size) l1.items).sum + (szOf v : ℚ) =
            (szOf v : ℚ) + (List.map (fun p => p.2.size) l1.items).sum
          ring
      refine increment_Inv hlk2 hcore ?_ ?_
      · intro k' it' hne hlk
        show k' ∈ bucketKeys l1.freqs
        rw [show lookupItem k' l2.items = lookupItem k' l1.items from
          lookupItem_cons_ne (Ne.symm hne) it0 l1.items] at hlk
        exact hi1.toBuckets k' it' hlk
      · intro p hp hne
        rcases List.mem_cons.mp hp with rfl | hp
        · exact absurd rfl hne
        · show l1.age ≤ p.2.priorityKey
          exact hi1.ageLe p hp

theorem get_Inv {l : LFUDA K V} (k : K) (hi : Inv l) : Inv (get l k).1 := by
  cases hl : lookupItem k l.items with
  | none => simpa [get, hl] using hi
  | some it =>
    have : (get l k).1 = increment l k := by
      simp [get, hl]
    rw [this]
    exact increment_Inv hl hi.toInvCore
      (fun k' it' _ hlk => hi.toBuckets k' it' hlk)
      (fun p hp _ => hi.ageLe p hp)

theorem purge_Inv (l : LFUDA K V) : Inv (purge l) := by
  refine ⟨⟨?_, ?_, ?_, ?_, ?_, ?_, ?_, ?_, ?_, ?_⟩, ?_, ?_⟩ <;>
    simp [purge, bucketKeys, lookupItem]

theorem newCache_Inv (cap : ℚ) (pol : Policy) : Inv (newCache cap pol : LFUDA K V) := by
  refine ⟨⟨?_, ?_, ?_, ?_, ?_, ?_, ?_, ?_, ?_, ?_⟩, ?_, ?_⟩ <;>
    simp [newCache, bucketKeys, lookupItem]

theorem step_Inv {l : LFUDA K V} (op : Op K V) (hi : Inv l) :
    Inv (step szOf l op) := by
  cases op with
  | set k v => exact set_Inv szOf k v hi
  | get k => exact get_Inv k hi
  | peek k => exact hi
  | contains k => exact hi
  | remove k => exact remove_Inv k hi
  | purge => exact purge_Inv l
  | keys => exact hi
  | len => exact hi
  | size => exact hi
  | age => exact hi

theorem run_Inv {l : LFUDA K V} (ops : List (Op K V)) (hi : Inv l) :
    Inv (run szOf l ops) := by
  induction ops generalizing l with
  | nil => exact hi
  | cons op rest ih => exact ih (step_Inv szOf op hi)

theorem reachable_Inv {l : LFUDA K V} (h : Reachable szOf l) : Inv l := by
  rcases h with ⟨cap, pol, ops, rfl⟩
  exact run_Inv szOf ops (newCache_Inv cap pol)

/-! ### Policy is a constant of the run -/

theorem set_policy (l : LFUDA K V) (k : K) (v : V) :
    (set szOf l k v).1.policy = l.policy := by
  cases hl : lookupItem k l.items with
  | some it =>
    rw [set_overwrite szOf hl, increment_policy]
  | none =>
    by_cases hbig : l.size < (szOf v : ℚ)
    · rw [set_reject szOf hl hbig]
    · rw [set_fresh_insert szOf hl hbig, increment_policy]
      exact evictLoop_policy _

theorem get_policy (l : LFUDA K V) (k : K) : (get l k).1.policy = l.policy := by
  cases hl : lookupItem k l.items with
  | none => simp [get, hl]
  | some it => simp [get, hl, increment_policy]

theorem step_policy (l : LFUDA K V) (op : Op K V) :
    (step szOf l op).policy = l.policy := by
  cases op with
  | set k v => exact set_policy szOf l k v
  | get k => exact get_policy l k
  | remove k => exact remove_policy l k
  | purge => rfl
  | peek k => rfl
  | contains k => rfl
  | keys => rfl
  | len => rfl
  | size => rfl
  | age => rfl

theorem run_policy (l : LFUDA K V) (ops : List (Op K V)) :
    (run szOf l ops).policy = l.policy := by
  induction ops generalizing l with
  | nil => rfl
  | cons op rest ih =>
    show (run szOf (step szOf l op) rest).policy = l.policy
    rw [ih, step_policy]

/-! ### Strict invariant machinery (spec I2) -/

theorem cons_fresh_InvCore {l1 : LFUDA K V} (hi1 : Inv l1) (k : K) (v : V)
    (nb : ℚ) (hnb : 0 ≤ nb) (hnone : lookupItem k l1.items = none) :
    InvCore { l1 with
      items := (k, { value := v, size := nb, hits := 0, priorityKey := 0 }) :: l1.items
      currSize := l1.currSize + nb } := by
  refine ⟨hi1.sorted, hi1.nonempty, ?_, hi1.bucketNodup, ?_, ?_, ?_, ?_, ?_,
    hi1.ageNonneg⟩
  · intro b hb k' hk'
    rcases hi1.toItems b hb k' hk' with ⟨it2, hit2, hpk2⟩
    have hne : k ≠ k' := by
      rintro rfl
      rw [hnone] at hit2
      exact Option.noConfusion hit2
    refine ⟨it2, ?_, hpk2⟩
    show lookupItem k' ((k, _) :: l1.items) = some it2
    rw [lookupItem_cons_ne hne]
    exact hit2
  · show (((k, _) :: l1.items).map Prod.fst).Nodup
    rw [List.map_cons, List.nodup_cons]
    exact ⟨lookupItem_eq_none_iff.mp hnone, hi1.itemsNodup⟩
  · intro p hp
    rcases List.mem_cons.mp hp with rfl | hp
    · show (0 : Pri) ≤ applyPolicy l1.policy 0 nb l1.age
      exact applyPolicy_nonneg _ (le_refl 0) hnb hi1.ageNonneg
    · exact hi1.priLe p hp
  · intro p hp
    rcases List.mem_cons.mp hp with rfl | hp
    · exact le_refl _
    · exact hi1.hitsNonneg p hp
  · intro p hp
    rcases List.mem_cons.mp hp with rfl | hp
    · exact hnb
    · exact hi1.sizeNonneg p hp
  · show l1.currSize + nb = (((k, _) :: l1.items).map fun p => p.2.size).sum
    rw [List.map_cons, List.sum_cons, hi1.currSizeEq]
    show (List.map (fun p => p.2.size) l1.items).sum + nb =
      nb + (List.map (fun p => p.2.size) l1.items).sum
    ring

theorem increment_SInv {l : LFUDA K V} {k : K} {it : Item V}
    (hl : lookupItem k l.items = some it) (hc : InvCore l) (hs : SInv l) :
    SInv (increment l k) := by
  have hmem : (k, it) ∈ l.items := lookupItem_mem hl
  have hsz0 : 0 ≤ it.size := hc.sizeNonneg _ hmem
  have hpos : l.policy = .gdsf → 0 < it.size := fun hp => hs.posSizes hp _ hmem
  set pk := applyPolicy l.policy (it.hits + 1) it.size l.age with hpkdef
  have hpkne : pk ≠ ⊤ := applyPolicy_ne_top _ hpos hs.ageNe
  have hblt : ∀ b ∈ l.freqs, k ∈ b.entries → b.priorityKey < pk := by
    intro b hb hkb
    have hpkb : it.priorityKey = b.priorityKey := by
      rcases hc.toItems b hb k hkb with ⟨it2, hit2, hpk2⟩
      rw [hl] at hit2
      rw [Option.some.inj hit2]
      exact hpk2
    rw [← hpkb]
    exact lt_of_le_of_lt (hc.priLe _ hmem)
      (applyPolicy_lt_hits _ (by linarith) hpos hs.ageNe)
  have hfr : (increment l k).freqs = incrFreqs pk k l.freqs := by
    unfold increment
    rw [hl]
  have hitems : (increment l k).items =
      updateItem k (fun i => { i with hits := it.hits + 1, priorityKey := pk })
        l.items := by
    unfold increment
    rw [hl]
  have hpol := increment_policy l k
  have hage := increment_age l k
  refine ⟨?_, ?_, ?_, ?_⟩
  · rw [hfr]
    unfold incrFreqs
    by_cases hk : k ∈ bucketKeys l.freqs
    · rw [if_pos (any_entries_iff.mpr hk)]
      exact placeExisting_pairwise_lt hs.ssorted hk hblt
    · rw [if_neg fun hcontra => hk (any_entries_iff.mp hcontra)]
      exact placeFrom_pairwise_lt hs.ssorted
  · rw [hage]
    exact hs.ageNe
  · intro p hp
    rw [hitems] at hp
    rcases mem_updateItem hp with ⟨hne, hpl⟩ | ⟨hpk1, it2, hit2, hp2⟩
    · exact hs.priNe _ hpl
    · rw [hp2]
      exact hpkne
  · intro hgd p hp
    rw [hpol] at hgd
    rw [hitems] at hp
    rcases mem_updateItem hp with ⟨hne, hpl⟩ | ⟨hpk1, it2, hit2, hp2⟩
    · exact hs.posSizes hgd _ hpl
    · rw [hp2]
      show 0 < it2.size
      exact hs.posSizes hgd _ hit2

theorem remove_SInv {l : LFUDA K V} (k : K) (hs : SInv l) :
    SInv (remove l k).1 := by
  cases hl : lookupItem k l.items with
  | none =>
    rw [remove_none hl]
    exact hs
  | some it =>
    rw [remove_some hl]
    have hesub : (eraseItem k l.items).Sublist l.items := eraseItem_sublist k l.items
    refine ⟨remEntry_pairwise hs.ssorted, hs.ageNe, ?_, ?_⟩
    · intro p hp
      exact hs.priNe _ (hesub.mem hp)
    · intro hgd p hp
      exact hs.posSizes hgd _ (hesub.mem hp)

theorem evict_SInv {l : LFUDA K V} (hs : SInv l) : SInv (evict l).1 := by
  rcases evict_cases l with h | ⟨b, rest, v, vs, it, hfr, hent, hl, h⟩
  · rw [h]
    exact hs
  · rw [h]
    have hitne : it.priorityKey ≠ ⊤ := hs.priNe _ (lookupItem_mem hl)
    refine remove_SInv v ⟨hs.ssorted, hitne, hs.priNe, hs.posSizes⟩

theorem evictLoop_SInv {nb : ℚ} (f : ℕ) :
    ∀ {l : LFUDA K V} {ev : Bool}, SInv l → SInv (evictLoop nb f l ev).1 := by
  induction f with
  | zero =>
    intro l ev hs
    exact hs
  | succ f ih =>
    intro l ev hs
    by_cases h : l.currSize + nb > l.size
    · rw [evictLoop_succ_pos h]
      exact ih (evict_SInv hs)
    · rw [evictLoop_succ_neg h]
      exact hs

theorem value_update_SInv {l : LFUDA K V} {k : K} {v : V} (hs : SInv l) :
    SInv { l with items := updateItem k (fun i => { i with value := v }) l.items } := by
  refine ⟨hs.ssorted, hs.ageNe, ?_, ?_⟩
  · intro p hp
    dsimp only at hp
    rcases mem_updateItem hp with ⟨hne, hpl⟩ | ⟨hpk1, it2, hit2, hp2⟩
    · exact hs.priNe _ hpl
    · rw [hp2]
      exact hs.priNe _ hit2
  · intro hgd p hp
    dsimp only at hp hgd
    rcases mem_updateItem hp with ⟨hne, hpl⟩ | ⟨hpk1, it2, hit2, hp2⟩
    · exact hs.posSizes hgd _ hpl
    · rw [hp2]
      show 0 < it2.size
      exact hs.posSizes hgd _ hit2

theorem set_SInv {l : LFUDA K V} (k : K) (v : V) (hi : Inv l) (hs : SInv l)
    (hgd : l.policy = .gdsf → 0 < szOf v) : SInv (set szOf l k v).1 := by
  cases hl : lookupItem k l.items with
  | some it =>
    rw [set_overwrite szOf hl]
    have hi' := value_update_Inv (k := k) (v := v) hi
    have hs' := value_update_SInv (k := k) (v := v) hs
    have hl' : lookupItem k
        ({ l with items := updateItem k (fun i => { i with value := v }) l.items}).items =
        some { it with value := v } := by
      dsimp only
      rw [lookupItem_updateItem_self, hl]
      rfl
    exact increment_SInv hl' hi'.toInvCore hs'
  | none =>
    by_cases hbig : l.size < (szOf v : ℚ)
    · rw [set_reject szOf hl hbig]
      exact hs
    · rw [set_fresh_insert szOf hl hbig]
      set l1 := (evictLoop ((szOf v : ℚ)) (l.items.length + 1) l false).1 with hl1
      have hi1 : Inv l1 := evictLoop_Inv _ hi
      have hs1 : SInv l1 := evictLoop_SInv _ hs
      have hnone1 : lookupItem k l1.items = none := by
        cases hsome : lookupItem k l1.items with
        | none => rfl
        | some it2 =>
          rw [evictLoop_subset _ hsome] at hl
          exact Option.noConfusion hl
      have hpol1 : l1.policy = l.policy := evictLoop_policy _
      have hcore := cons_fresh_InvCore hi1 k v ((szOf v : ℚ)) (by positivity) hnone1
      have hlk2 : lookupItem k
          ({ l1 with
            items := (k, { value := v, size := ((szOf v : ℚ)), hits := 0, priorityKey := 0 }) :: l1.items
            currSize := l1.currSize + (szOf v : ℚ) } : LFUDA K V).items =
          some { value := v, size := ((szOf v : ℚ)), hits := 0, priorityKey := 0 } :=
        lookupItem_cons_self _ _ _
      refine increment_SInv hlk2 hcore ⟨hs1.ssorted, hs1.ageNe, ?_, ?_⟩
      · intro p hp
        rcases List.mem_cons.mp hp with rfl | hp
        · show ((0 : ℚ) : Pri) ≠ ⊤
          exact WithTop.coe_ne_top
        · exact hs1.priNe _ hp
      · intro hgd' p hp
        dsimp only at hgd'
        rw [hpol1] at hgd'
        rcases List.mem_cons.mp hp with rfl | hp
        · show (0 : ℚ) < ((szOf v : ℚ))
          exact_mod_cast hgd hgd'
        · exact hs1.posSizes (by rw [hpol1]; exact hgd') _ hp

theorem get_SInv {l : LFUDA K V} (k : K) (hi : Inv l) (hs : SInv l) :
    SInv (get l k).1 := by
  cases hl : lookupItem k l.items with
  | none => simpa [get, hl] using hs
  | some it =>
    have : (get l k).1 = increment l k := by
      simp [get, hl]
    rw [this]
    exact increment_SInv hl hi.toInvCore hs

theorem purge_SInv (l : LFUDA K V) : SInv (purge l) := by
  refine ⟨?_, ?_, ?_, ?_⟩ <;> simp [purge]

theorem newCache_SInv (cap : ℚ) (pol : Policy) :
    SInv (newCache cap pol : LFUDA K V) := by
  refine ⟨?_, ?_, ?_, ?_⟩ <;> simp [newCache]

theorem step_SInv {l : LFUDA K V} (op : Op K V) (hi : Inv l) (hs : SInv l)
    (hgd : ∀ k v, op = Op.set k v → l.policy = .gdsf → 0 < szOf v) :
    SInv (step szOf l op) := by
  cases op with
  | set k v => exact set_SInv szOf k v hi hs (hgd k v rfl)
  | get k => exact get_SInv k hi hs
  | peek k => exact hs
  | contains k => exact hs
  | remove k => exact remove_SInv k hs
  | purge => exact purge_SInv l
  | keys => exact hs
  | len => exact hs
  | size => exact hs
  | age => exact hs

theorem run_SInv {l : LFUDA K V} (ops : List (Op K V)) (hi : Inv l) (hs : SInv l)
    (hgd : GoodOps szOf l.policy ops) : SInv (run szOf l ops) := by
  induction ops generalizing l with
  | nil => exact hs
  | cons op rest ih =>
    show SInv (run szOf (step szOf l op) rest)
    have hpol := step_policy szOf l op
    refine ih (step_Inv szOf op hi)
      (step_SInv szOf op hi hs fun k v heq => hgd op (List.mem_cons_self _ _) k v heq)
      ?_
    intro op' hop' k v heq hpol'
    rw [hpol] at hpol'
    exact hgd op' (List.mem_cons_of_mem _ hop') k v heq hpol'

/-! ### Age monotonicity along the operation surface (spec I5) -/

theorem set_age_ge {l : LFUDA K V} (k : K) (v : V) (hi : Inv l) :
    l.age ≤ (set szOf l k v).1.age := by
  cases hl : lookupItem k l.items with
  | some it =>
    rw [set_overwrite szOf hl, increment_age]
  | none =>
    by_cases hbig : l.size < (szOf v : ℚ)
    · rw [set_reject szOf hl hbig]
    · rw [set_fresh_insert szOf hl hbig, increment_age]
      exact evictLoop_age _ hi

theorem get_age (l : LFUDA K V) (k : K) : (get l k).1.age = l.age := by
  cases hl : lookupItem k l.items with
  | none => simp [get, hl]
  | some it => simp [get, hl, increment_age]

theorem step_age_ge {l : LFUDA K V} (op : Op K V) (hi : Inv l)
    (hop : op ≠ Op.purge) : l.age ≤ (step szOf l op).age := by
  cases op with
  | set k v => exact set_age_ge szOf k v hi
  | get k => exact le_of_eq (get_age l k).symm
  | remove k => exact le_of_eq (remove_age l k).symm
  | purge => exact absurd rfl hop
  | peek k => exact le_refl _
  | contains k => exact le_refl _
  | keys => exact le_refl _
  | len => exact le_refl _
  | size => exact le_refl _
  | age => exact le_refl _

theorem purge_age (l : LFUDA K V) : (step szOf l Op.purge).age = 0 := rfl

/-! ### The `Set` return flag (spec return contract) -/

theorem set_flag_guard_iff {l : LFUDA K V} (k : K) (v : V) :
    (set szOf l k v).2 = true ↔
      lookupItem k l.items = none ∧ (szOf v : ℚ) ≤ l.size ∧
        l.size < l.currSize + (szOf v : ℚ) := by
  cases hl : lookupItem k l.items with
  | some it =>
    rw [set_overwrite szOf hl]
    simp
  | none =>
    by_cases hbig : l.size < (szOf v : ℚ)
    · rw [set_reject szOf hl hbig]
      simp only [Bool.false_eq_true, false_iff, not_and]
      intro _ hle
      linarith
    · rw [set_fresh_insert szOf hl hbig]
      by_cases hguard : l.currSize + (szOf v : ℚ) > l.size
      · have : (evictLoop ((szOf v : ℚ)) (l.items.length + 1) l false).2 = true :=
          evictLoop_flag_of_guard hguard
        rw [this]
        constructor
        · intro _
          exact ⟨rfl, le_of_not_lt hbig, by linarith⟩
        · intro _
          rfl
      · rw [evictLoop_succ_neg hguard]
        simp only [Bool.false_eq_true, false_iff, not_and]
        intro _ _ h
        exact absurd (by linarith : l.currSize + (szOf v : ℚ) > l.size) hguard

theorem set_lost_iff {l : LFUDA K V} (k : K) (v : V) (hi : Inv l) :
    (set szOf l k v).2 = true ↔
      ∃ k', (∃ it', lookupItem k' l.items = some it') ∧
        lookupItem k' (set szOf l k v).1.items = none := by
  constructor
  · intro hflag
    rcases (set_flag_guard_iff szOf k v).mp hflag with ⟨hl, hfit, hguard⟩
    have hbig : ¬l.size < (szOf v : ℚ) := not_lt.mpr hfit
    rcases evictLoop_lost (f := l.items.length) (e := false) hi hfit
      (by linarith) with ⟨k', hk'some, hk'none⟩
    have hkne : k' ≠ k := by
      rintro rfl
      rcases hk'some with ⟨it', hit'⟩
      rw [hl] at hit'
      exact Option.noConfusion hit'
    refine ⟨k', hk'some, ?_⟩
    rw [set_fresh_insert szOf hl hbig]
    rw [lookupItem_increment_ne (Ne.symm hkne)]
    show lookupItem k' ((k, _) :: _) = none
    rw [lookupItem_cons_ne (Ne.symm hkne)]
    exact hk'none
  · intro hlost
    by_contra hflag
    rcases hlost with ⟨k', ⟨it', hit'⟩, hnone⟩
    cases hl : lookupItem k l.items with
    | some it =>
      rw [set_overwrite szOf hl] at hnone
      by_cases hkk : k' = k
      · subst hkk
        have hupd : lookupItem k'
            ({ l with items := updateItem k' (fun i => { i with value := v }) l.items }).items =
            some { it with value := v } := by
          dsimp only
          rw [lookupItem_updateItem_self, hl]
          rfl
        rw [lookupItem_increment_self hupd] at hnone
        exact Option.noConfusion hnone
      · rw [lookupItem_increment_ne (Ne.symm hkk)] at hnone
        dsimp only at hnone
        rw [lookupItem_updateItem_ne (Ne.symm hkk), hit'] at hnone
        exact Option.noConfusion hnone
    | none =>
      by_cases hbig : l.size < (szOf v : ℚ)
      · rw [set_reject szOf hl hbig] at hnone
        rw [hit'] at hnone
        exact Option.noConfusion hnone
      · have hguard : ¬l.currSize + (szOf v : ℚ) > l.size := by
          intro hguard
          exact hflag ((set_flag_guard_iff szOf k v).mpr
            ⟨hl, le_of_not_lt hbig, by linarith⟩)
        rw [set_fresh_insert szOf hl hbig] at hnone
        rw [evictLoop_succ_neg hguard] at hnone
        by_cases hkk : k' = k
        · subst hkk
          rw [hl] at hit'
          exact Option.noConfusion hit'
        · rw [lookupItem_increment_ne (Ne.symm hkk)] at hnone
          show False
          rw [show lookupItem k'
              (({ (l, false).1 with
                items := (k, { value := v, size := ((szOf v : ℚ)), hits := 0, priorityKey := 0 }) :: (l, false).1.items
                currSize := (l, false).1.currSize + ((szOf v : ℚ)) } : LFUDA K V)).items =
              lookupItem k' l.items from lookupItem_cons_ne (Ne.symm hkk) _ _] at hnone
          rw [hit'] at hnone
          exact Option.noConfusion hnone

/-! ### `Keys` lemmas -/

theorem keys_perm_bucketKeys (l : LFUDA K V) :
    (keys l).Perm (bucketKeys l.freqs) := by
  show ((l.freqs.reverse.map Bucket.entries).flatten).Perm _
  have h1 : (l.freqs.reverse.map Bucket.entries).Perm (l.freqs.map Bucket.entries) :=
    ((l.freqs.reverse_perm).map _)
  exact h1.flatten

theorem keys_perm_itemKeys {l : LFUDA K V} (hi : Inv l) :
    (keys l).Perm (l.items.map Prod.fst) := by
  refine (keys_perm_bucketKeys l).trans ?_
  rw [List.perm_ext_iff_of_nodup hi.bucketNodup hi.itemsNodup]
  intro k
  constructor
  · intro hk
    rcases List.mem_flatten.mp hk with ⟨es, hes, hkes⟩
    rcases List.mem_map.mp hes with ⟨b, hb, rfl⟩
    rcases hi.toItems b hb k hkes with ⟨it, hit, -⟩
    rw [← lookupItem_isSome_iff]
    exact ⟨it, hit⟩
  · intro hk
    rcases lookupItem_isSome_iff.mpr hk with ⟨it, hit⟩
    exact hi.toBuckets k it hit

theorem set_lookup_self {l : LFUDA K V} {k : K} {v : V}
    (hfit : (szOf v : ℚ) ≤ l.size) :
    ∃ it', lookupItem k (set szOf l k v).1.items = some it' ∧ it'.value = v := by
  cases hl : lookupItem k l.items with
  | some it =>
    rw [set_overwrite szOf hl]
    have hupd : lookupItem k
        ({ l with items := updateItem k (fun i => { i with value := v }) l.items }).items =
        some { it with value := v } := by
      dsimp only
      rw [lookupItem_updateItem_self, hl]
      rfl
    rw [lookupItem_increment_self hupd]
    exact ⟨_, rfl, rfl⟩
  | none =>
    have hbig : ¬l.size < (szOf v : ℚ) := not_lt.mpr hfit
    rw [set_fresh_insert szOf hl hbig]
    have hcons : lookupItem k
        ({ (evictLoop ((szOf v : ℚ)) (l.items.length + 1) l false).1 with
          items := (k, { value := v, size := ((szOf v : ℚ)), hits := 0, priorityKey := 0 }) ::
            (evictLoop ((szOf v : ℚ)) (l.items.length + 1) l false).1.items
          currSize := (evictLoop ((szOf v : ℚ)) (l.items.length + 1) l false).1.currSize
            + ((szOf v : ℚ)) } : LFUDA K V).items =
        some { value := v, size := ((szOf v : ℚ)), hits := 0, priorityKey := 0 } :=
      lookupItem_cons_self _ _ _
    rw [lookupItem_increment_self hcons]
    exact ⟨_, rfl, rfl⟩

/-! ### The claims -/

/-- C1: after every eviction (invoked only from the admission loop of
`Set`) on a non-empty cache, the engine's age equals the priorityKey of
the evicted item, that key was the minimum priority key present before
the eviction, and the new age is ≤ every priority key still present. -/
theorem evict_age_is_min_priority {K V : Type} [DecidableEq K] (szOf : V → ℕ)
    (l : LFUDA K V) (hreach : Reachable szOf l) (hne : l.items ≠ []) :
    ∃ v it, lookupItem v l.items = some it ∧ (evict l).2 = true ∧
      (evict l).1.age = it.priorityKey ∧
      lookupItem v (evict l).1.items = none ∧
      (∀ k' it', lookupItem k' l.items = some it' →
        it.priorityKey ≤ it'.priorityKey) ∧
      (∀ k' it', lookupItem k' (evict l).1.items = some it' →
        (evict l).1.age ≤ it'.priorityKey) := by
  have hi := reachable_Inv szOf hreach
  have hfne := (items_ne_iff_freqs_ne hi).mp hne
  rcases evict_progress hi hfne with ⟨v, it, hit, hflag, hage, hnone, hmin⟩
  refine ⟨v, it, hit, hflag, hage, hnone, hmin, ?_⟩
  intro k' it' hl'
  rw [hage]
  exact hmin k' it' (evict_subset hl')

/-- C1 witness: a concrete one-item reachable LFUDA cache. -/
theorem evict_age_is_min_priority_witness :
    Reachable strSize (run strSize (newCache 10 Policy.lfuda : LFUDA String String)
        [Op.set "a" "a"]) ∧
    (run strSize (newCache 10 Policy.lfuda : LFUDA String String)
        [Op.set "a" "a"]).items ≠ [] ∧
    (∃ v it, lookupItem v (run strSize (newCache 10 Policy.lfuda : LFUDA String String)
        [Op.set "a" "a"]).items = some it ∧
      (evict (run strSize (newCache 10 Policy.lfuda : LFUDA String String)
        [Op.set "a" "a"])).2 = true ∧
      (evict (run strSize (newCache 10 Policy.lfuda : LFUDA String String)
        [Op.set "a" "a"])).1.age = it.priorityKey ∧
      lookupItem v (evict (run strSize (newCache 10 Policy.lfuda : LFUDA String String)
        [Op.set "a" "a"])).1.items = none ∧
      (∀ k' it', lookupItem k' (run strSize (newCache 10 Policy.lfuda : LFUDA String String)
        [Op.set "a" "a"]).items = some it' → it.priorityKey ≤ it'.priorityKey) ∧
      (∀ k' it', lookupItem k' (evict (run strSize (newCache 10 Policy.lfuda : LFUDA String String)
        [Op.set "a" "a"])).1.items = some it' →
        (evict (run strSize (newCache 10 Policy.lfuda : LFUDA String String)
        [Op.set "a" "a"])).1.age ≤ it'.priorityKey)) := by
  refine ⟨⟨10, Policy.lfuda, [Op.set "a" "a"], rfl⟩, ?_, ?_⟩
  · norm_num +decide [run, step, set, newCache, lookupItem, evictLoop, evict,
      increment, incrFreqs, placeFrom, placeExisting, applyPolicy, lfudaPolicy,
      updateItem, strSize, bucketKeys, String.length, ← WithTop.coe_add]
  · exact evict_age_is_min_priority strSize _ ⟨10, Policy.lfuda, [Op.set "a" "a"], rfl⟩
      (by norm_num +decide [run, step, set, newCache, lookupItem, evictLoop, evict,
        increment, incrFreqs, placeFrom, placeExisting, applyPolicy, lfudaPolicy,
        updateItem, strSize, bucketKeys, String.length, ← WithTop.coe_add])

/-- C2: across each public operation the age never decreases, except
`Purge`, which resets it to 0. -/
theorem age_monotone_except_purge {K V : Type} [DecidableEq K] (szOf : V → ℕ)
    (l : LFUDA K V) (hreach : Reachable szOf l) :
    (∀ op : Op K V, op ≠ Op.purge → l.age ≤ (step szOf l op).age) ∧
      (step szOf l Op.purge).age = 0 := by
  have hi := reachable_Inv szOf hreach
  exact ⟨fun op hop => step_age_ge szOf op hi hop, rfl⟩

/-- C2 witness: the fresh cache with a non-purge and the purge step. -/
theorem age_monotone_except_purge_witness :
    Reachable strSize (newCache 5 Policy.lfuda : LFUDA String String) ∧
    ((newCache 5 Policy.lfuda : LFUDA String String).age ≤
      (step strSize (newCache 5 Policy.lfuda) (Op.get "x")).age) ∧
    (step strSize (newCache 5 Policy.lfuda : LFUDA String String) Op.purge).age = 0 := by
  have hr : Reachable strSize (newCache 5 Policy.lfuda : LFUDA String String) :=
    ⟨5, Policy.lfuda, [], rfl⟩
  have h := age_monotone_except_purge strSize _ hr
  exact ⟨hr, h.1 (Op.get "x") (by decide), h.2⟩

/-- C5: a value whose byte size exceeds the capacity is rejected silently:
`Set` returns `false` and the state is bit-identical. -/
theorem set_too_big_rejected {K V : Type} [DecidableEq K] (szOf : V → ℕ)
    (l : LFUDA K V) (k : K) (v : V) (hl : lookupItem k l.items = none)
    (hbig : l.size < (szOf v : ℚ)) :
    set szOf l k v = (l, false) :=
  set_reject szOf hl hbig

/-- C5 witness: a 16-byte value against a 3-byte cache. -/
theorem set_too_big_rejected_witness :
    lookupItem "d" (newCache 3 Policy.lfuda : LFUDA String String).items = none ∧
    (newCache 3 Policy.lfuda : LFUDA String String).size <
      ((strSize "too big to store" : ℕ) : ℚ) ∧
    set strSize (newCache 3 Policy.lfuda : LFUDA String String) "d" "too big to store" =
      ((newCache 3 Policy.lfuda : LFUDA String String), false) := by
  refine ⟨rfl, ?_, ?_⟩
  · show (3 : ℚ) < ((16 : ℕ) : ℚ)
    norm_num
  · exact set_too_big_rejected strSize _ "d" "too big to store" rfl
      (by show (3 : ℚ) < ((16 : ℕ) : ℚ); norm_num)

/-- The overwrite path of `Set` in full detail: `currSize` and the
recorded item size are untouched; the value is replaced, the hit count
incremented, the priority key recomputed. -/
theorem set_overwrite_lookup {K V : Type} [DecidableEq K]
    (szOf : V → ℕ) (l : LFUDA K V) (k : K) (v2 : V) (it : Item V)
    (hl : lookupItem k l.items = some it) :
    cacheSize (set szOf l k v2).1 = cacheSize l ∧
    ∃ it', lookupItem k (set szOf l k v2).1.items = some it' ∧
      it'.size = it.size ∧ it'.value = v2 ∧ it'.hits = it.hits + 1 ∧
      it'.priorityKey = applyPolicy l.policy (it.hits + 1) it.size l.age := by
  rw [set_overwrite szOf hl]
  constructor
  · show (increment _ k).currSize = l.currSize
    rw [increment_currSize]
  · have hupd : lookupItem k
        ({ l with items := updateItem k (fun i => { i with value := v2 }) l.items }).items =
        some { it with value := v2 } := by
      dsimp only
      rw [lookupItem_updateItem_self, hl]
      rfl
    rw [lookupItem_increment_self hupd]
    exact ⟨_, rfl, rfl, rfl, rfl, rfl⟩

/-- C9: overwriting a present key leaves the recorded byte size and
`Size()` unchanged even when the new value's size differs; only the
stored value, hit count, and priority key change. -/
theorem overwrite_preserves_recorded_size {K V : Type} [DecidableEq K]
    (szOf : V → ℕ) (l : LFUDA K V) (k : K) (v2 : V) (it : Item V)
    (hl : lookupItem k l.items = some it) :
    cacheSize (set szOf l k v2).1 = cacheSize l ∧
    ∃ it', lookupItem k (set szOf l k v2).1.items = some it' ∧
      it'.size = it.size ∧ it'.value = v2 ∧ it'.hits = it.hits + 1 ∧
      it'.priorityKey = applyPolicy l.policy (it.hits + 1) it.size l.age :=
  set_overwrite_lookup szOf l k v2 it hl

/-- C9 witness: overwrite a 1-byte item with a 3-byte value; `Size()`
stays 1, so it no longer equals the sum of the stored values' sizes. -/
theorem overwrite_preserves_recorded_size_witness :
    (∃ it, lookupItem "a" (run strSize (newCache 10 Policy.lfuda : LFUDA String String)
        [Op.set "a" "a"]).items = some it ∧
      (cacheSize (set strSize (run strSize (newCache 10 Policy.lfuda : LFUDA String String)
          [Op.set "a" "a"]) "a" "zzz").1 =
        cacheSize (run strSize (newCache 10 Policy.lfuda : LFUDA String String)
          [Op.set "a" "a"]) ∧
      ∃ it', lookupItem "a" (set strSize (run strSize (newCache 10 Policy.lfuda : LFUDA String String)
          [Op.set "a" "a"]) "a" "zzz").1.items = some it' ∧
        it'.size = it.size ∧ it'.value = "zzz" ∧ it'.hits = it.hits + 1 ∧
        it'.priorityKey = applyPolicy (run strSize (newCache 10 Policy.lfuda : LFUDA String String)
          [Op.set "a" "a"]).policy (it.hits + 1) it.size
          (run strSize (newCache 10 Policy.lfuda : LFUDA String String)
          [Op.set "a" "a"]).age)) ∧
    cacheSize (set strSize (run strSize (newCache 10 Policy.lfuda : LFUDA String String)
        [Op.set "a" "a"]) "a" "zzz").1 = 1 ∧
    ((strSize "zzz" : ℕ) : ℚ) = 3 := by
  have hl : lookupItem "a" (run strSize (newCache 10 Policy.lfuda : LFUDA String String)
      [Op.set "a" "a"]).items =
      some { value := "a", size := 1, hits := 1, priorityKey := ((1 : ℚ) : Pri) } := by
    norm_num +decide [run, step, set, newCache, lookupItem, evictLoop, evict,
      increment, incrFreqs, placeFrom, placeExisting, applyPolicy, lfudaPolicy,
      updateItem, strSize, bucketKeys, String.length, ← WithTop.coe_add]
  refine ⟨⟨_, hl, overwrite_preserves_recorded_size strSize _ "a" "zzz" _ hl⟩, ?_, by norm_num [strSize, String.length]⟩
  have h9 := overwrite_preserves_recorded_size strSize
    (run strSize (newCache 10 Policy.lfuda : LFUDA String String) [Op.set "a" "a"])
    "a" "zzz" _ hl
  rw [h9.1]
  norm_num +decide [run, step, set, newCache, lookupItem, evictLoop, evict,
    increment, incrFreqs, placeFrom, placeExisting, applyPolicy, lfudaPolicy,
    updateItem, strSize, bucketKeys, cacheSize, String.length, ← WithTop.coe_add]

/-- C4: `Set` returns true iff at least one eviction occurred while
admitting a new key; equivalently, iff the key was absent, the value fit
the capacity, and the current load left no room.  In particular it
returns false on overwrite, on a fitting admission without eviction, and
on silent rejection of an oversized value. -/
theorem set_flag_iff_eviction {K V : Type} [DecidableEq K] (szOf : V → ℕ)
    (l : LFUDA K V) (hreach : Reachable szOf l) (k : K) (v : V) :
    ((set szOf l k v).2 = true ↔
      ∃ k', (∃ it', lookupItem k' l.items = some it') ∧
        lookupItem k' (set szOf l k v).1.items = none) ∧
    ((set szOf l k v).2 = true ↔
      lookupItem k l.items = none ∧ (szOf v : ℚ) ≤ l.size ∧
        l.size < l.currSize + (szOf v : ℚ)) :=
  ⟨set_lost_iff szOf k v (reachable_Inv szOf hreach), set_flag_guard_iff szOf k v⟩

/-- C4 witness: the fresh 5-byte cache with a 1-byte value. -/
theorem set_flag_iff_eviction_witness :
    Reachable strSize (newCache 5 Policy.lfuda : LFUDA String String) ∧
    (((set strSize (newCache 5 Policy.lfuda : LFUDA String String) "a" "a").2 = true ↔
      ∃ k', (∃ it', lookupItem k' (newCache 5 Policy.lfuda : LFUDA String String).items = some it') ∧
        lookupItem k' (set strSize (newCache 5 Policy.lfuda : LFUDA String String) "a" "a").1.items = none) ∧
    ((set strSize (newCache 5 Policy.lfuda : LFUDA String String) "a" "a").2 = true ↔
      lookupItem "a" (newCache 5 Policy.lfuda : LFUDA String String).items = none ∧
        ((strSize "a" : ℕ) : ℚ) ≤ (newCache 5 Policy.lfuda : LFUDA String String).size ∧
        (newCache 5 Policy.lfuda : LFUDA String String).size <
          (newCache 5 Policy.lfuda : LFUDA String String).currSize + ((strSize "a" : ℕ) : ℚ))) := by
  have hr : Reachable strSize (newCache 5 Policy.lfuda : LFUDA String String) :=
    ⟨5, Policy.lfuda, [], rfl⟩
  exact ⟨hr, set_flag_iff_eviction strSize _ hr "a" "a"⟩

/-- C7: `Keys` lists each live key exactly once, in order of
non-increasing priority (the members of one bucket are listed together,
their mutual order unspecified). -/
theorem keys_once_each_high_to_low {K V : Type} [DecidableEq K] (szOf : V → ℕ)
    (l : LFUDA K V) (hreach : Reachable szOf l) :
    (keys l).length = len l ∧
    (∀ k, (∃ it, lookupItem k l.items = some it) → (keys l).count k = 1) ∧
    (∀ k, lookupItem k l.items = none → (keys l).count k = 0) ∧
    (keys l).Pairwise (fun k1 k2 => ∀ it1 it2, lookupItem k1 l.items = some it1 →
      lookupItem k2 l.items = some it2 → it2.priorityKey ≤ it1.priorityKey) := by
  have hi := reachable_Inv szOf hreach
  have hperm := keys_perm_itemKeys hi
  have hnd : (keys l).Nodup := hperm.nodup_iff.mpr hi.itemsNodup
  refine ⟨?_, ?_, ?_, ?_⟩
  · rw [hperm.length_eq, List.length_map]
    rfl
  · rintro k ⟨it, hit⟩
    refine List.count_eq_one_of_mem hnd ?_
    rw [hperm.mem_iff]
    exact lookupItem_isSome_iff.mp ⟨it, hit⟩
  · intro k hnone
    rw [List.count_eq_zero]
    intro hk
    rw [hperm.mem_iff] at hk
    rcases lookupItem_isSome_iff.mpr hk with ⟨it, hit⟩
    rw [hnone] at hit
    exact Option.noConfusion hit
  · show ((l.freqs.reverse.map Bucket.entries).flatten).Pairwise _
    rw [List.pairwise_flatten]
    constructor
    · intro es hes
      rcases List.mem_map.mp hes with ⟨b, hb, rfl⟩
      have hbmem : b ∈ l.freqs := List.mem_reverse.mp hb
      refine List.pairwise_of_forall_mem_list ?_
      intro k1 h1 k2 h2 it1 it2 hit1 hit2
      rw [item_pk_eq_bucket_pk hi hbmem h1 hit1,
        item_pk_eq_bucket_pk hi hbmem h2 hit2]
    · rw [List.pairwise_map, List.pairwise_reverse]
      refine hi.sorted.imp_of_mem ?_
      intro b1 b2 hb1 hb2 hle k1 h1 k2 h2 it1 it2 hit1 hit2
      rw [item_pk_eq_bucket_pk hi hb2 h1 hit1,
        item_pk_eq_bucket_pk hi hb1 h2 hit2]
      exact hle

/-- C7 witness: a concrete two-item reachable cache. -/
theorem keys_once_each_high_to_low_witness :
    Reachable strSize (run strSize (newCache 10 Policy.lfuda : LFUDA String String)
      [Op.set "a" "a", Op.set "b" "b"]) ∧
    ((keys (run strSize (newCache 10 Policy.lfuda : LFUDA String String)
        [Op.set "a" "a", Op.set "b" "b"])).length =
      len (run strSize (newCache 10 Policy.lfuda : LFUDA String String)
        [Op.set "a" "a", Op.set "b" "b"]) ∧
    (∀ k, (∃ it, lookupItem k (run strSize (newCache 10 Policy.lfuda : LFUDA String String)
        [Op.set "a" "a", Op.set "b" "b"]).items = some it) →
      (keys (run strSize (newCache 10 Policy.lfuda : LFUDA String String)
        [Op.set "a" "a", Op.set "b" "b"])).count k = 1) ∧
    (∀ k, lookupItem k (run strSize (newCache 10 Policy.lfuda : LFUDA String String)
        [Op.set "a" "a", Op.set "b" "b"]).items = none →
      (keys (run strSize (newCache 10 Policy.lfuda : LFUDA String String)
        [Op.set "a" "a", Op.set "b" "b"])).count k = 0) ∧
    (keys (run strSize (newCache 10 Policy.lfuda : LFUDA String String)
        [Op.set "a" "a", Op.set "b" "b"])).Pairwise
      (fun k1 k2 => ∀ it1 it2,
        lookupItem k1 (run strSize (newCache 10 Policy.lfuda : LFUDA String String)
          [Op.set "a" "a", Op.set "b" "b"]).items = some it1 →
        lookupItem k2 (run strSize (newCache 10 Policy.lfuda : LFUDA String String)
          [Op.set "a" "a", Op.set "b" "b"]).items = some it2 →
        it2.priorityKey ≤ it1.priorityKey)) := by
  have hr : Reachable strSize (run strSize (newCache 10 Policy.lfuda : LFUDA String String)
      [Op.set "a" "a", Op.set "b" "b"]) :=
    ⟨10, Policy.lfuda, [Op.set "a" "a", Op.set "b" "b"], rfl⟩
  exact ⟨hr, keys_once_each_high_to_low strSize _ hr⟩

/-- C8 as frozen is false: if the value does not fit the capacity, `Set`
rejects it, the key is never present, and the final `Get` misses.
Concretely, on an empty 3-byte cache `Set("a","xxxx"); Set("a","xxxx")`
stores nothing and `Get("a")` returns not-found instead of the value. -/
theorem overwrite_claim_false_when_oversized :
    (get (set strSize (set strSize (newCache 3 Policy.lfuda : LFUDA String String)
      "a" "xxxx").1 "a" "xxxx").1 "a").2 = none ∧
    (((set strSize (set strSize (newCache 3 Policy.lfuda : LFUDA String String)
      "a" "xxxx").1 "a" "xxxx").1.items.map Prod.fst).count "a") = 0 := by
  constructor <;>
    norm_num +decide [set, get, newCache, lookupItem, evictLoop, evict, increment,
      incrFreqs, placeFrom, placeExisting, applyPolicy, lfudaPolicy, updateItem,
      strSize, bucketKeys, String.length]

/-- C8 amended: provided the first value fits the capacity
(`size-of(v1) ≤ capacity`), `Set(k,v1); Set(k,v2)` keeps exactly one item
for `k` throughout, the second `Set` is an overwrite returning
`evicted = false`, and `Get(k)` then returns `v2`. -/
theorem overwrite_law_of_fit {K V : Type} [DecidableEq K] (szOf : V → ℕ)
    (l : LFUDA K V) (hreach : Reachable szOf l) (k : K) (v1 v2 : V)
    (hfit : (szOf v1 : ℚ) ≤ l.size) :
    (∃ it1, lookupItem k (set szOf l k v1).1.items = some it1 ∧ it1.value = v1) ∧
    ((set szOf l k v1).1.items.map Prod.fst).count k = 1 ∧
    (set szOf (set szOf l k v1).1 k v2).2 = false ∧
    (∃ it2, lookupItem k (set szOf (set szOf l k v1).1 k v2).1.items = some it2 ∧
      it2.value = v2) ∧
    ((set szOf (set szOf l k v1).1 k v2).1.items.map Prod.fst).count k = 1 ∧
    (get (set szOf (set szOf l k v1).1 k v2).1 k).2 = some v2 := by
  have hi := reachable_Inv szOf hreach
  have hi1 : Inv (set szOf l k v1).1 := set_Inv szOf k v1 hi
  have hi2 : Inv (set szOf (set szOf l k v1).1 k v2).1 := set_Inv szOf k v2 hi1
  rcases set_lookup_self szOf hfit (l := l) (k := k) (v := v1) with ⟨it1, hit1, hval1⟩
  rcases (set_overwrite_lookup szOf _ k v2 it1 hit1).2 with
    ⟨it2, hit2, -, hval2, -, -⟩
  refine ⟨⟨it1, hit1, hval1⟩, ?_, ?_, ⟨it2, hit2, hval2⟩, ?_, ?_⟩
  · refine List.count_eq_one_of_mem hi1.itemsNodup ?_
    exact lookupItem_isSome_iff.mp ⟨it1, hit1⟩
  · rw [set_overwrite szOf hit1]
  · refine List.count_eq_one_of_mem hi2.itemsNodup ?_
    exact lookupItem_isSome_iff.mp ⟨it2, hit2⟩
  · simp [get, hit2, hval2]

/-- C8 witness: a fitting 1-byte value overwritten by a 2-byte value. -/
theorem overwrite_law_of_fit_witness :
    Reachable strSize (newCache 10 Policy.lfuda : LFUDA String String) ∧
    ((strSize "x" : ℕ) : ℚ) ≤ (newCache 10 Policy.lfuda : LFUDA String String).size ∧
    ((∃ it1, lookupItem "a" (set strSize (newCache 10 Policy.lfuda : LFUDA String String)
        "a" "x").1.items = some it1 ∧ it1.value = "x") ∧
    ((set strSize (newCache 10 Policy.lfuda : LFUDA String String)
        "a" "x").1.items.map Prod.fst).count "a" = 1 ∧
    (set strSize (set strSize (newCache 10 Policy.lfuda : LFUDA String String)
        "a" "x").1 "a" "yy").2 = false ∧
    (∃ it2, lookupItem "a" (set strSize (set strSize (newCache 10 Policy.lfuda : LFUDA String String)
        "a" "x").1 "a" "yy").1.items = some it2 ∧ it2.value = "yy") ∧
    ((set strSize (set strSize (newCache 10 Policy.lfuda : LFUDA String String)
        "a" "x").1 "a" "yy").1.items.map Prod.fst).count "a" = 1 ∧
    (get (set strSize (set strSize (newCache 10 Policy.lfuda : LFUDA String String)
        "a" "x").1 "a" "yy").1 "a").2 = some "yy") := by
  have hr : Reachable strSize (newCache 10 Policy.lfuda : LFUDA String String) :=
    ⟨10, Policy.lfuda, [], rfl⟩
  have hfit : ((strSize "x" : ℕ) : ℚ) ≤ (newCache 10 Policy.lfuda : LFUDA String String).size := by
    show ((1 : ℕ) : ℚ) ≤ 10
    norm_num
  exact ⟨hr, hfit, overwrite_law_of_fit strSize _ hr "a" "x" "yy" hfit⟩

/-- C3 as frozen is false on the code: under GDSF two values rendering to
the empty string (byte size 0) both receive priority `hits/0 = +Inf`
(modelled `⊤`), and a `Get` then splits them into two buckets that share
the priority key `⊤`, so the bucket list is no longer strictly
increasing. -/
theorem bucket_order_claim_false_gdsf_zero :
    ((run strSize (newCache 10 Policy.gdsf : LFUDA String String)
      [Op.set "a" "", Op.set "b" "", Op.get "a"]).freqs.map Bucket.priorityKey) =
      [⊤, ⊤] ∧
    ¬ (run strSize (newCache 10 Policy.gdsf : LFUDA String String)
      [Op.set "a" "", Op.set "b" "", Op.get "a"]).freqs.Pairwise bucketLT := by
  have hmap : ((run strSize (newCache 10 Policy.gdsf : LFUDA String String)
      [Op.set "a" "", Op.set "b" "", Op.get "a"]).freqs.map Bucket.priorityKey) =
      [⊤, ⊤] := by
    norm_num +decide [run, step, set, get, newCache, lookupItem, evictLoop, evict,
      increment, incrFreqs, placeFrom, placeExisting, applyPolicy, gdsfPolicy,
      updateItem, strSize, bucketKeys, String.length]
  refine ⟨hmap, ?_⟩
  intro hpw
  have h2 : List.Pairwise (· < ·)
      ((run strSize (newCache 10 Policy.gdsf : LFUDA String String)
        [Op.set "a" "", Op.set "b" "", Op.get "a"]).freqs.map Bucket.priorityKey) :=
    List.pairwise_map.mpr hpw
  rw [hmap] at h2
  rw [List.pairwise_cons] at h2
  exact absurd (h2.1 ⊤ (List.mem_singleton.mpr rfl)) (lt_irrefl ⊤)

/-- C3 amended: after every public operation the bucket list is strictly
increasing in priority key front to back, no two buckets share a key, and
no bucket is empty — provided that, under GDSF, every value passed to
`Set` has positive byte size (under LFUDA no proviso is needed). -/
theorem bucket_order_strict_of_positive_sizes {K V : Type} [DecidableEq K]
    (szOf : V → ℕ) (cap : ℚ) (pol : Policy) (ops : List (Op K V))
    (hgd : GoodOps szOf pol ops) :
    (run szOf (newCache cap pol) ops).freqs.Pairwise bucketLT ∧
    ((run szOf (newCache cap pol) ops).freqs.map Bucket.priorityKey).Nodup ∧
    ∀ b ∈ (run szOf (newCache cap pol) ops).freqs, b.entries ≠ [] := by
  have hi := run_Inv szOf ops (newCache_Inv cap pol)
  have hs := run_SInv szOf ops (newCache_Inv cap pol) (newCache_SInv cap pol) hgd
  refine ⟨hs.ssorted, ?_, hi.nonempty⟩
  exact List.pairwise_map.mpr (hs.ssorted.imp ne_of_lt)

/-- C3 witness: one positive-size insertion under GDSF. -/
theorem bucket_order_strict_of_positive_sizes_witness :
    GoodOps strSize Policy.gdsf ([Op.set "a" "a"] : List (Op String String)) ∧
    ((run strSize (newCache 10 Policy.gdsf : LFUDA String String)
      [Op.set "a" "a"]).freqs.Pairwise bucketLT ∧
    ((run strSize (newCache 10 Policy.gdsf : LFUDA String String)
      [Op.set "a" "a"]).freqs.map Bucket.priorityKey).Nodup ∧
    ∀ b ∈ (run strSize (newCache 10 Policy.gdsf : LFUDA String String)
      [Op.set "a" "a"]).freqs, b.entries ≠ []) := by
  have hgd : GoodOps strSize Policy.gdsf ([Op.set "a" "a"] : List (Op String String)) := by
    intro op hop k v heq _
    rw [List.mem_singleton.mp hop] at heq
    injection heq with h1 h2
    subst h1
    subst h2
    decide
  exact ⟨hgd, bucket_order_strict_of_positive_sizes strSize 10 Policy.gdsf _ hgd⟩

/-- C6: the literal aging-based admission scenario on a fresh 3-byte
LFUDA cache: `Set("a","a"); Get("a"); Set("b","b"); Get("b")`, then
`Set("c","z")` fits without eviction, `Set("d","too big to store")` is
rejected, `Set("d","d")` evicts, and afterwards the age is 1 and both
"a" and "b" are still present. -/
theorem scenario_aging_admission :
    (set strSize (run strSize (newCache 3 Policy.lfuda : LFUDA String String)
      [Op.set "a" "a", Op.get "a", Op.set "b" "b", Op.get "b"]) "c" "z").2 = false ∧
    (set strSize (run strSize (newCache 3 Policy.lfuda : LFUDA String String)
      [Op.set "a" "a", Op.get "a", Op.set "b" "b", Op.get "b", Op.set "c" "z"])
      "d" "too big to store").2 = false ∧
    (set strSize (run strSize (newCache 3 Policy.lfuda : LFUDA String String)
      [Op.set "a" "a", Op.get "a", Op.set "b" "b", Op.get "b", Op.set "c" "z",
       Op.set "d" "too big to store"]) "d" "d").2 = true ∧
    cacheAge (run strSize (newCache 3 Policy.lfuda : LFUDA String String)
      [Op.set "a" "a", Op.get "a", Op.set "b" "b", Op.get "b", Op.set "c" "z",
       Op.set "d" "too big to store", Op.set "d" "d"]) = ((1 : ℚ) : Pri) ∧
    containsKey (run strSize (newCache 3 Policy.lfuda : LFUDA String String)
      [Op.set "a" "a", Op.get "a", Op.set "b" "b", Op.get "b", Op.set "c" "z",
       Op.set "d" "too big to store", Op.set "d" "d"]) "a" = true ∧
    containsKey (run strSize (newCache 3 Policy.lfuda : LFUDA String String)
      [Op.set "a" "a", Op.get "a", Op.set "b" "b", Op.get "b", Op.set "c" "z",
       Op.set "d" "too big to store", Op.set "d" "d"]) "b" = true := by
  refine ⟨?_, ?_, ?_, ?_, ?_, ?_⟩ <;>
    norm_num +decide [run, step, set, get, newCache, lookupItem, evictLoop, evict,
      increment, incrFreqs, placeFrom, placeExisting, applyPolicy, lfudaPolicy,
      updateItem, eraseItem, remEntry, remove, containsKey, cacheAge,
      strSize, bucketKeys, String.length, ← WithTop.coe_add]

/-- C10: nothing enforces a positive item size: `Set` admits a value
rendering to the empty string (byte size 0) under GDSF, and the admitted
item's priority key is computed by `gdsfPolicy` with divisor 0 — the
`hits/0` division that Go evaluates to `+Inf`, modelled as `⊤`. -/
theorem gdsf_division_by_zero_size_reachable :
    (set strSize (newCache 10 Policy.gdsf : LFUDA String String) "a" "").2 = false ∧
    lookupItem "a" (set strSize (newCache 10 Policy.gdsf : LFUDA String String) "a" "").1.items =
      some { value := "", size := 0, hits := 1, priorityKey := gdsfPolicy 1 0 0 } ∧
    gdsfPolicy 1 0 0 = ⊤ := by
  refine ⟨?_, ?_, by simp [gdsfPolicy]⟩ <;>
    norm_num +decide [set, newCache, lookupItem, evictLoop, evict, increment,
      incrFreqs, placeFrom, placeExisting, applyPolicy, gdsfPolicy, updateItem,
      strSize, bucketKeys, String.length]

end Lfuda
